import Mathlib

/-!
Verification of the RAG documentation-indexing pipeline and its serving API.

The Lean definitions below are a shallow embedding of the Python sources:

* `src/indexing/indexer/ingest_index.py`  (`batch_iter`, `helper_no_null`, `ingest_file`)
* `src/indexing/indexer/indexer.py`       (indexing orchestrator script)
* `src/indexing/crawler/rate_limit_backoff.py` (`_should_retry`,
  `fetch_with_rate_limit_and_backoff`)
* `src/indexing/crawler/seeds_loader.py`  (`strip_tracking`, `normalize_url`)
* `src/indexing/crawler/fetcher_v1.py` and `src/indexing/crawler/crawler.py`
  (raw-page save paths)
* `src/indexing/chunker/policy.py` and `src/indexing/chunker/core.py`
  (`estimate_tokens`, `make_chunks`)
* `src/indexing/parser/core.py`           (`block_to_dict`, `section_to_dict`)
* `src/app/rag.py`                        (`respond_stream`, `build_citations_from_docs`)

Python built-ins used by that code (string methods, `urllib.parse`, `hashlib.sha1`,
UTF-8 codecs) are modelled at the character/byte level following CPython's
implementation.  Machine integers are represented as `Nat` with explicit
`% 2 ^ 32` where 32-bit overflow matters.  Fallible code returns `Except`.
-/

/-! ## Shared Python-semantics helpers -/

namespace Py

/-- Python truthiness of an optional string: `None` and `""` are falsy. -/
def truthy : Option String → Bool
  | Option.none => false
  | some s => !s.isEmpty

/-- Python `a or b` on optional strings (returns `b` whenever `a` is falsy). -/
def strOr (a b : Option String) : Option String :=
  if truthy a then a else b

/-- ASCII whitespace recognised by Python's `str.strip()` (the further Unicode
whitespace code points stripped by CPython do not occur in this development). -/
def isSpace (c : Char) : Bool :=
  c == ' ' || c == '\t' || c == '\n' || c == '\r' || c == '\x0b' || c == '\x0c'

/-- Python `str.strip()` on a list of characters. -/
def stripChars (s : List Char) : List Char :=
  ((s.dropWhile isSpace).reverse.dropWhile isSpace).reverse

/-- Python `str.strip()`. -/
def strip (s : String) : String :=
  String.mk (stripChars s.data)

/-- Python `a.startswith(b)` at the character level. -/
def startsWithChars : List Char → List Char → Bool
  | _, [] => true
  | [], _ :: _ => false
  | c :: cs, p :: ps => c == p && startsWithChars cs ps

/-- Python `a.startswith(b)`. -/
def pyStartsWith (s pre : String) : Bool :=
  startsWithChars s.data pre.data

/-- UTF-8 encoding of one Unicode scalar value, as a list of byte values. -/
def utf8EncodeNat (n : Nat) : List Nat :=
  if n < 0x80 then [n]
  else if n < 0x800 then [0xC0 + n / 64, 0x80 + n % 64]
  else if n < 0x10000 then [0xE0 + n / 4096, 0x80 + n / 64 % 64, 0x80 + n % 64]
  else [0xF0 + n / 262144, 0x80 + n / 4096 % 64, 0x80 + n / 64 % 64, 0x80 + n % 64]

/-- Python `s.encode("utf-8")` on a list of characters. -/
def utf8EncodeChars (s : List Char) : List Nat :=
  s.flatMap fun c => utf8EncodeNat c.toNat

/-- Python `s.encode("utf-8")`. -/
def utf8Encode (s : String) : List Nat :=
  utf8EncodeChars s.data

end Py

/-! ## SHA-1 (`hashlib.sha1`), modelled on RFC 3174 as used by the fetchers
and the chunker for page ids and chunk ids.  Words are `Nat` values kept
below `2 ^ 32` by explicit reduction. -/

namespace Sha1

/-- Left rotation of a 32-bit word. -/
def rotl (n x : Nat) : Nat :=
  ((x <<< n) ||| (x >>> (32 - n))) % 2 ^ 32

/-- The SHA-1 round function. -/
def roundF (t b c d : Nat) : Nat :=
  if t < 20 then (b &&& c) ||| ((b ^^^ 0xFFFFFFFF) &&& d)
  else if t < 40 then b ^^^ c ^^^ d
  else if t < 60 then (b &&& c) ||| (b &&& d) ||| (c &&& d)
  else b ^^^ c ^^^ d

/-- The SHA-1 round constants. -/
def roundK (t : Nat) : Nat :=
  if t < 20 then 0x5A827999
  else if t < 40 then 0x6ED9EBA1
  else if t < 60 then 0x8F1BBCDC
  else 0xCA62C1D6

/-- Big-endian 32-bit words from a 64-byte block. -/
def wordsOfBlock : List Nat → List Nat
  | b0 :: b1 :: b2 :: b3 :: rest =>
    (b0 * 2 ^ 24 + b1 * 2 ^ 16 + b2 * 2 ^ 8 + b3) :: wordsOfBlock rest
  | _ => []

/-- Extend 16 schedule words to 80 (fuel-driven so the kernel can reduce it). -/
def extendSchedule : Nat → List Nat → List Nat
  | 0, w => w
  | fuel + 1, w =>
    let n := w.length
    let x := rotl 1 (((w.get? (n - 3)).getD 0) ^^^ ((w.get? (n - 8)).getD 0) ^^^
      ((w.get? (n - 14)).getD 0) ^^^ ((w.get? (n - 16)).getD 0))
    extendSchedule fuel (w ++ [x])

/-- One SHA-1 round on the five-word working state. -/
def roundStep (st : Nat × Nat × Nat × Nat × Nat) (tw : Nat × Nat) :
    Nat × Nat × Nat × Nat × Nat :=
  let (a, b, c, d, e) := st
  let (t, wt) := tw
  let temp := (rotl 5 a + roundF t b c d + e + roundK t + wt) % 2 ^ 32
  (temp, a, rotl 30 b, c, d)

/-- Process one 64-byte block, updating the five hash words. -/
def processBlock (h : Nat × Nat × Nat × Nat × Nat) (block : List Nat) :
    Nat × Nat × Nat × Nat × Nat :=
  let w := extendSchedule 64 (wordsOfBlock block)
  let (h0, h1, h2, h3, h4) := h
  let (a, b, c, d, e) := ((List.range 80).zip w).foldl roundStep h
  ((h0 + a) % 2 ^ 32, (h1 + b) % 2 ^ 32, (h2 + c) % 2 ^ 32, (h3 + d) % 2 ^ 32,
   (h4 + e) % 2 ^ 32)

/-- Split a byte list into 64-byte blocks (fuel-driven). -/
def blocks64 : Nat → List Nat → List (List Nat)
  | 0, _ => []
  | _, [] => []
  | fuel + 1, l => l.take 64 :: blocks64 fuel (l.drop 64)

/-- Big-endian bytes of `n`, `k` bytes wide. -/
def beBytes (k n : Nat) : List Nat :=
  (List.range k).map fun i => n / 2 ^ (8 * (k - 1 - i)) % 256

/-- SHA-1 padding: `0x80`, zeros to 56 mod 64, then the 64-bit bit length. -/
def pad (msg : List Nat) : List Nat :=
  let l := msg.length
  let zeros := (64 + 56 - (l + 1) % 64) % 64
  msg ++ [0x80] ++ List.replicate zeros 0 ++ beBytes 8 (l * 8 % 2 ^ 64)

/-- The SHA-1 digest (20 bytes) of a byte list. -/
def digest (msg : List Nat) : List Nat :=
  let padded := pad msg
  let (h0, h1, h2, h3, h4) := (blocks64 padded.length padded).foldl processBlock
    (0x67452301, 0xEFCDAB89, 0x98BADCFE, 0x10325476, 0xC3D2E1F0)
  beBytes 4 h0 ++ beBytes 4 h1 ++ beBytes 4 h2 ++ beBytes 4 h3 ++ beBytes 4 h4

/-- Lowercase hex digit. -/
def hexDigit (n : Nat) : Char :=
  if n < 10 then Char.ofNat (48 + n) else Char.ofNat (87 + n)

/-- Lowercase hex string of a byte list. -/
def toHex (bs : List Nat) : String :=
  String.mk (bs.flatMap fun b => [hexDigit (b / 16), hexDigit (b % 16)])

end Sha1

/-- `hashlib.sha1(s.encode("utf-8")).hexdigest()` — the `sha1` helpers of
fetcher_v1.py, crawler.py and chunker/core.py. -/
def sha1Hex (s : String) : String :=
  Sha1.toHex (Sha1.digest (Py.utf8Encode s))

/-! ## `urllib.parse` as used by `seeds_loader.normalize_url`

Modelled on CPython 3.11 `urllib/parse.py`: `urlsplit` (leading
control/space characters stripped, tab/CR/LF removed, scheme detected and
lowercased, netloc split at the first of `/?#`, then fragment and query
split), `urlunsplit`, `quote` with the default `safe='/'`, and `unquote`
with UTF-8 `errors='replace'` decoding.  Not modelled: the `ValueError`
raised for malformed bracketed (IPv6) hosts and the NFKC netloc check —
these reject certain inputs outright rather than changing any produced
value — and `str.lower()` is modelled on ASCII letters (the Unicode case
mappings are likewise idempotent). -/

namespace Url

/-- `scheme_chars` from `urllib.parse` (ASCII letters, digits, `+`, `-`, `.`). -/
def isSchemeChar (c : Char) : Bool :=
  c.isAlpha || c.isDigit || c == '+' || c == '-' || c == '.'

/-- ASCII lowercasing (`str.lower()`). -/
def lowerChar (c : Char) : Char := c.toLower

/-- Split a character list at the first occurrence of `delim` (the delimiter
is dropped); `none` when absent — Python `s.split(delim, 1)`. -/
def splitOnFirst (delim : Char) : List Char → Option (List Char × List Char)
  | [] => Option.none
  | c :: cs =>
    if c == delim then some ([], cs)
    else (splitOnFirst delim cs).map fun p => (c :: p.1, p.2)

/-- Python `s.split(delim)` (all occurrences) on character lists. -/
def splitAllGo (delim : Char) (cur : List Char) : List Char → List (List Char)
  | [] => [cur.reverse]
  | c :: cs =>
    if c == delim then cur.reverse :: splitAllGo delim [] cs
    else splitAllGo delim (c :: cur) cs

/-- Python `s.split(delim)`. -/
def splitAll (delim : Char) (l : List Char) : List (List Char) :=
  splitAllGo delim [] l

/-- The result of `urlsplit`. -/
structure SplitResult where
  scheme : List Char
  netloc : List Char
  path : List Char
  query : List Char
  fragment : List Char
deriving Repr, DecidableEq

/-- `_splitnetloc`: the netloc runs to the first of `/`, `?`, `#`. -/
def isNetlocEnd (c : Char) : Bool :=
  c == '/' || c == '?' || c == '#'

/-- The netloc/fragment/query stage of `urlsplit`, applied to the part after
the scheme separator. -/
def urlsplitTail (scheme rest : List Char) : SplitResult :=
  let netlocSplit :=
    if rest.take 2 = ['/', '/'] then
      let body := rest.drop 2
      let netloc := body.takeWhile fun c => !isNetlocEnd c
      (netloc, body.drop netloc.length)
    else ([], rest)
  let netloc := netlocSplit.1
  let rest2 := netlocSplit.2
  let fragSplit := (splitOnFirst '#' rest2).getD (rest2, [])
  let querySplit := (splitOnFirst '?' fragSplit.1).getD (fragSplit.1, [])
  ⟨scheme, netloc, querySplit.1, querySplit.2, fragSplit.2⟩

/-- `urlsplit` (CPython 3.11): leading C0-control/space characters are
stripped, tab/CR/LF removed everywhere, then scheme, netloc, fragment and
query are split off in that order. -/
def urlsplitChars (url0 : List Char) : SplitResult :=
  let url1 := url0.dropWhile fun c => c.toNat ≤ 0x20
  let url := url1.filter fun c => !(c == '\t' || c == '\r' || c == '\n')
  let schemeSplit :=
    (splitOnFirst ':' url).elim ([], url) fun p =>
      if !p.1.isEmpty && (match p.1.head? with
          | some c0 => c0.isAlpha
          | Option.none => false) && p.1.all isSchemeChar then
        (p.1.map lowerChar, p.2)
      else ([], url)
  urlsplitTail schemeSplit.1 schemeSplit.2

/-- `uses_netloc` from `urllib.parse` (the schemes relevant here; the full
CPython list also holds further exotic schemes, none of which can be produced
by `normalize_url`). -/
def usesNetloc : List (List Char) :=
  ["ftp", "http", "gopher", "nntp", "telnet", "imap", "wais", "file", "mms",
   "https", "shttp", "snews", "prospero", "rtsp", "rtsps", "rtspu", "rsync",
   "svn", "svn+ssh", "sftp", "nfs", "git", "git+ssh", "ws", "wss"].map
    String.data

/-- The path adjustment `urlunsplit` performs in its netloc branch: a
nonempty path not starting with `/` gets one prepended. -/
def absPath (url : List Char) : List Char :=
  if url ≠ [] ∧ url.head? ≠ some '/' then '/' :: url else url

/-- `urlunsplit` (CPython 3.11). -/
def urlunsplitChars (r : SplitResult) : List Char :=
  let url := r.path
  let url :=
    if r.netloc ≠ [] ∨ (r.scheme ≠ [] ∧ usesNetloc.contains r.scheme ∧
        url.take 2 ≠ ['/', '/']) then
      '/' :: '/' :: (r.netloc ++ absPath url)
    else url
  let url := if r.scheme ≠ [] then r.scheme ++ ':' :: url else url
  let url := if r.query ≠ [] then url ++ '?' :: r.query else url
  let url := if r.fragment ≠ [] then url ++ '#' :: r.fragment else url
  url

/-- `_ALWAYS_SAFE` of `urllib.parse.quote`: ASCII alphanumerics and `_.-~`. -/
def isAlwaysSafe (c : Char) : Bool :=
  c.isAlpha || c.isDigit || c == '_' || c == '.' || c == '-' || c == '~'

/-- Uppercase hex digit (as used by `quote`'s `%{:02X}` format). -/
def hexUpper (n : Nat) : Char :=
  if n < 10 then Char.ofNat (48 + n) else Char.ofNat (55 + n)

/-- `quote(c, safe='/')` for one character: safe characters pass through,
anything else is percent-encoded byte-by-byte from its UTF-8 encoding. -/
def quoteChar (c : Char) : List Char :=
  if isAlwaysSafe c || c == '/' then [c]
  else (Py.utf8EncodeNat c.toNat).flatMap fun b => ['%', hexUpper (b / 16), hexUpper (b % 16)]

/-- `quote(s, safe='/')`. -/
def quoteChars (s : List Char) : List Char :=
  s.flatMap quoteChar

/-- Hex digit value (both cases), as accepted by `unquote`'s `_hextobyte`. -/
def hexVal? (c : Char) : Option Nat :=
  if '0' ≤ c ∧ c ≤ '9' then some (c.toNat - 48)
  else if 'a' ≤ c ∧ c ≤ 'f' then some (c.toNat - 87)
  else if 'A' ≤ c ∧ c ≤ 'F' then some (c.toNat - 55)
  else Option.none

/-- A token of the `unquote` scanner: a literal character, or one byte that
came from a `%XX` escape. -/
inductive QTok where
  | lit (c : Char)
  | byte (b : Nat)
deriving Repr, DecidableEq

/-- Scan a string into `unquote` tokens: `%` followed by two hex digits
yields a byte; any other character (including a `%` not followed by two hex
digits) is literal. -/
def unquoteScan : List Char → List QTok
  | [] => []
  | '%' :: c1 :: c2 :: rest =>
    match hexVal? c1, hexVal? c2 with
    | some h1, some h2 => QTok.byte (16 * h1 + h2) :: unquoteScan rest
    | _, _ => QTok.lit '%' :: unquoteScan (c1 :: c2 :: rest)
  | '%' :: rest => QTok.lit '%' :: unquoteScan rest
  | c :: rest => QTok.lit c :: unquoteScan rest

/-- A UTF-8 continuation byte. -/
def isCont (b : Nat) : Bool :=
  0x80 ≤ b && b < 0xC0

/-- Valid first continuation byte after a 3-byte lead (excludes overlong
forms after `E0` and surrogates after `ED`). -/
def validCont3 (b b1 : Nat) : Bool :=
  if b == 0xE0 then 0xA0 ≤ b1 && b1 ≤ 0xBF
  else if b == 0xED then 0x80 ≤ b1 && b1 ≤ 0x9F
  else isCont b1

/-- Valid first continuation byte after a 4-byte lead (excludes overlong
forms after `F0` and values above `U+10FFFF` after `F4`). -/
def validCont4 (b b1 : Nat) : Bool :=
  if b == 0xF0 then 0x90 ≤ b1 && b1 ≤ 0xBF
  else if b == 0xF4 then 0x80 ≤ b1 && b1 ≤ 0x8F
  else isCont b1

/-- The U+FFFD replacement character. -/
def repl : Char := Char.ofNat 0xFFFD

/-- UTF-8 decoding with `errors='replace'` of one maximal run of bytes, as
performed by `bytes.decode("utf-8", "replace")`: each maximal invalid
subpart is replaced by one U+FFFD.  Fuel-driven (one byte is consumed per
step, so `fuel = length` suffices) to keep the definition kernel-reducible. -/
def utf8DecodeRunGo : Nat → List Nat → List Char
  | 0, _ => []
  | _ + 1, [] => []
  | fuel + 1, b :: bs =>
    if b < 0x80 then Char.ofNat b :: utf8DecodeRunGo fuel bs
    else if b < 0xC2 then repl :: utf8DecodeRunGo fuel bs
    else if b < 0xE0 then
      match bs with
      | b1 :: rest =>
        if isCont b1 then
          Char.ofNat ((b - 0xC0) * 64 + (b1 - 0x80)) :: utf8DecodeRunGo fuel rest
        else repl :: utf8DecodeRunGo fuel bs
      | [] => [repl]
    else if b < 0xF0 then
      match bs with
      | b1 :: rest1 =>
        if validCont3 b b1 = false then repl :: utf8DecodeRunGo fuel bs
        else
          match rest1 with
          | b2 :: rest2 =>
            if isCont b2 then
              Char.ofNat ((b - 0xE0) * 4096 + (b1 - 0x80) * 64 + (b2 - 0x80)) ::
                utf8DecodeRunGo fuel rest2
            else repl :: utf8DecodeRunGo fuel rest1
          | [] => [repl]
      | [] => [repl]
    else if b < 0xF5 then
      match bs with
      | b1 :: rest1 =>
        if validCont4 b b1 = false then repl :: utf8DecodeRunGo fuel bs
        else
          match rest1 with
          | b2 :: rest2 =>
            if isCont b2 = false then repl :: utf8DecodeRunGo fuel rest1
            else
              match rest2 with
              | b3 :: rest3 =>
                if isCont b3 then
                  Char.ofNat ((b - 0xF0) * 262144 + (b1 - 0x80) * 4096 +
                    (b2 - 0x80) * 64 + (b3 - 0x80)) :: utf8DecodeRunGo fuel rest3
                else repl :: utf8DecodeRunGo fuel rest2
              | [] => [repl]
          | [] => [repl]
      | [] => [repl]
    else repl :: utf8DecodeRunGo fuel bs

/-- UTF-8 `errors='replace'` decoding of a byte run. -/
def utf8DecodeRun (bs : List Nat) : List Char :=
  utf8DecodeRunGo bs.length bs

/-- `unquote` main loop: literal characters pass through; maximal runs of
`%XX`-bytes are decoded together (an accumulator holds the pending run in
reverse). -/
def unquoteGo (pending : List Nat) : List QTok → List Char
  | [] => utf8DecodeRun pending.reverse
  | QTok.byte b :: rest => unquoteGo (b :: pending) rest
  | QTok.lit c :: rest => utf8DecodeRun pending.reverse ++ c :: unquoteGo [] rest

/-- `urllib.parse.unquote(s)` (UTF-8, `errors='replace'`). -/
def unquoteChars (s : List Char) : List Char :=
  unquoteGo [] (unquoteScan s)

/-- The tokens the `unquote` scanner produces for the `quote` encoding of one
character: safe characters stay literal, every other character becomes the
byte tokens of its UTF-8 encoding. -/
def tokOf (c : Char) : List QTok :=
  if isAlwaysSafe c || c == '/' then [QTok.lit c]
  else (Py.utf8EncodeNat c.toNat).map QTok.byte

/-- A character `urlsplit`'s tab/CR/LF filter keeps. -/
def cleanChar (c : Char) : Bool :=
  !(c == '\t' || c == '\r' || c == '\n')

/-- A character that cannot terminate the path component early when the
reassembled URL is split again: clean and neither `#` nor `?`. -/
def okPathChar (c : Char) : Bool :=
  cleanChar c && !(c == '#') && !(c == '?')

end Url

/-! ## Seed loader (`src/indexing/crawler/seeds_loader.py`) -/

namespace Seeds

/-- `TRACKING_PARAMS` (seeds_loader.py line 27). -/
def TRACKING_PARAMS : List String :=
  ["utm_source", "utm_medium", "utm_campaign", "utm_term", "utm_content",
   "fbclid", "gclid", "ref"]

/-- Python `kv.split("=", 1)[0]`. -/
def keyOf (kv : List Char) : List Char :=
  kv.takeWhile fun c => !(c == '=')

/-- The query rewrite of `strip_tracking`: a nonempty query is split on `&`,
empty components and components whose key is a tracking parameter are
dropped, and the rest is rejoined; an empty query is left alone. -/
def stripQuery (q : List Char) : List Char :=
  if q ≠ [] then
    (((Url.splitAll '&' q).filter fun kv =>
        kv ≠ [] ∧ ¬ TRACKING_PARAMS.contains (String.mk (keyOf kv))).intersperse
      ['&']).flatten
  else q

/-- `strip_tracking` (seeds_loader.py lines 31-44): drop empty `&`-components
and components whose key is a tracking parameter, then reassemble. -/
def strip_trackingChars (url : List Char) : List Char :=
  let parts := Url.urlsplitChars url
  Url.urlunsplitChars { parts with query := stripQuery parts.query }

/-- Last path segment: Python `path.rsplit("/", 1)[-1]`. -/
def lastSegment (path : List Char) : List Char :=
  ((path.reverse.takeWhile fun c => !(c == '/')).reverse)

/-- The scheme forcing step: `http` and `https` both become `https`. -/
def normScheme (s : List Char) : List Char :=
  if s = "http".data ∨ s = "https".data then "https".data else s

/-- The trailing-slash step: a path whose last segment has no `.` and that
does not already end in `/` gets a `/` appended. -/
def slashAdjust (path0 : List Char) : List Char :=
  if ¬ (lastSegment path0).contains '.' ∧ path0.getLast? ≠ some '/' then
    path0 ++ ['/']
  else path0

/-- `normalize_url(raw)` with no `base` (seeds_loader.py lines 47-62): force
`http(s)` to `https`, lowercase the host, drop the fragment, re-encode the
path (`quote(unquote(path))`), add a trailing slash to extensionless paths,
reassemble and strip tracking parameters. -/
def normalize_urlChars (raw : List Char) : List Char :=
  let parts := Url.urlsplitChars raw
  let scheme := normScheme parts.scheme
  let netloc := parts.netloc.map Url.lowerChar
  let path := slashAdjust (Url.quoteChars (Url.unquoteChars parts.path))
  strip_trackingChars
    (Url.urlunsplitChars ⟨scheme, netloc, path, parts.query, []⟩)

/-- `normalize_url` on strings. -/
def normalize_url (raw : String) : String :=
  String.mk (normalize_urlChars raw.data)

/-- The invariant the components of a `normalize_url` output satisfy: the
netloc is nonempty, lowercase and free of `/?#` and of tab/CR/LF; the scheme
is empty or a valid lowercase scheme no longer subject to forcing; the path
is a `quote` image starting with `/` on which the trailing-slash step is a
no-op; the query is clean, free of `#`, and already stripped of empty and
tracking components. -/
def NormInv (s h p q : List Char) : Prop :=
  h ≠ [] ∧
  (s = [] ∨ ((∃ c0 s2, s = c0 :: s2 ∧ c0.isAlpha = true) ∧
    s.all Url.isSchemeChar = true ∧ s.map Url.lowerChar = s)) ∧
  normScheme s = s ∧
  h.map Url.lowerChar = h ∧
  h.all (fun c => !(Url.isNetlocEnd c)) = true ∧
  h.all Url.cleanChar = true ∧
  (∃ cs, p = Url.quoteChars cs) ∧
  p.head? = some '/' ∧
  ((lastSegment p).contains '.' = true ∨ p.getLast? = some '/') ∧
  q.all Url.cleanChar = true ∧
  q.all (fun c => !(c == '#')) = true ∧
  (q ≠ [] → (Url.splitAll '&' q).filter
      (fun kv => kv ≠ [] ∧ ¬ TRACKING_PARAMS.contains (String.mk (keyOf kv))) =
      Url.splitAll '&' q)

end Seeds

/-! ## Chunk policy (`src/indexing/chunker/policy.py`) and chunker core
(`src/indexing/chunker/core.py`)

Parsed pages are JSON dictionaries; a content block is modelled as a record
with one optional field per key any block variant may carry, so that key
lookups with defaults (`block.get("content", "")`) translate directly. -/

namespace Chunker

/-- `SOFT_TOKENS` (policy.py line 21). -/
def SOFT_TOKENS : Nat := 700

/-- `HARD_TOKENS` (policy.py line 25). -/
def HARD_TOKENS : Nat := 1000

/-- `INCLUDE_HEADING` (policy.py line 33). -/
def INCLUDE_HEADING : Bool := true

/-- `estimate_tokens(text) = ceil(len(text) / 4)` (policy.py lines 38-59). -/
def estimate_tokens (text : String) : Nat :=
  (text.length + 3) / 4

/-- One content-block dictionary as consumed by the chunker.  The chunker
reads paragraph text from key `text`, code from key `content`, the language
from `language`, list items from `items`; the parser additionally writes a
`code` key and an `ordered` key. -/
structure Block where
  type : String
  text : Option String := Option.none
  content : Option String := Option.none
  code : Option String := Option.none
  language : Option String := Option.none
  items : Option (List String) := Option.none
  ordered : Option Bool := Option.none
deriving Repr, DecidableEq

/-- One section dictionary: level, heading text, optional anchor, blocks,
children. -/
inductive Section where
  | mk (level : Nat) (heading_text : Option String) (anchor : Option String)
       (blocks : List Block) (children : List Section)
deriving Repr

/-- The `level` entry. -/
def Section.level : Section → Nat
  | .mk l _ _ _ _ => l

/-- The `heading_text` entry. -/
def Section.heading_text : Section → Option String
  | .mk _ h _ _ _ => h

/-- The `anchor` entry. -/
def Section.anchor : Section → Option String
  | .mk _ _ a _ _ => a

/-- The `blocks` entry. -/
def Section.blocks : Section → List Block
  | .mk _ _ _ b _ => b

/-- The `children` entry. -/
def Section.children : Section → List Section
  | .mk _ _ _ _ cs => cs

mutual

/-- Structural (Python `==`) equality of section dictionaries. -/
def secBEq : Section → Section → Bool
  | .mk l1 h1 a1 b1 c1, .mk l2 h2 a2 b2 c2 =>
    l1 == l2 && h1 == h2 && a1 == a2 && b1 == b2 && secListBEq c1 c2

/-- Structural equality of section lists. -/
def secListBEq : List Section → List Section → Bool
  | [], [] => true
  | s :: ss, t :: ts => secBEq s t && secListBEq ss ts
  | _, _ => false

end

instance : BEq Section := ⟨secBEq⟩

/-- `provenance` of a parsed page. -/
structure Provenance where
  url_final : String
  title : Option String
  fetched_at : Option String
deriving Repr, DecidableEq

/-- A parsed page as consumed by `make_chunks`. -/
structure ParsedPage where
  provenance : Provenance
  sections : List Section
deriving Repr

/-- One output chunk (core.py lines 228-239). -/
structure Chunk where
  id : String
  text : String
  url_final : String
  url_citable : String
  title : Option String
  section_level : Nat
  section_heading : Option String
  section_anchor : Option String
  fetched_at : Option String
  has_code : Bool
deriving Repr, DecidableEq

mutual

/-- `_iter_h2_nodes` (core.py lines 55-68): all level-2 sections in document
order, descending into level-1 sections only. -/
def _iter_h2_nodes : List Section → List Section
  | [] => []
  | s :: rest => _iter_h2_one s ++ _iter_h2_nodes rest

/-- The contribution of one top node to `_iter_h2_nodes`. -/
def _iter_h2_one : Section → List Section
  | Section.mk l h a b cs =>
    if l = 2 then [Section.mk l h a b cs]
    else if l = 1 then _iter_h2_nodes cs
    else []

end

/-- `_first_h1_or_root` (core.py lines 71-83): the first level-1 section, or
a synthetic root holding the top sections as children. -/
def _first_h1_or_root (sections : List Section) : Section :=
  match sections.find? fun s => s.level == 1 with
  | some s => s
  | Option.none => Section.mk 1 Option.none Option.none [] sections

/-- `_render_block` (core.py lines 88-106).  Note: code blocks are rendered
from key `content` — the structural parser emits the code under key `code`,
so parser-produced code blocks render as an empty fence. -/
def _render_block (block : Block) : String × Bool :=
  if block.type = "paragraph" then (block.text.getD "", false)
  else if block.type = "list" then
    let items := block.items.getD []
    (String.intercalate "\n" (items.map fun it => "- " ++ it), false)
  else if block.type = "code" then
    let lang := block.language.getD ""
    let code := block.content.getD ""
    let fence :=
      if lang ≠ "" then "```" ++ lang ++ "\n" ++ code ++ "\n```"
      else "```\n" ++ code ++ "\n```"
    (fence, true)
  else ("", false)

/-- `_render_blocks` (core.py lines 109-123): nonempty block renderings
joined by blank lines, stripped; `has_code` is the disjunction. -/
def _render_blocks (blocks : List Block) : String × Bool :=
  let step := blocks.foldl (fun acc b =>
    let r := _render_block b
    (if r.1 ≠ "" then acc.1 ++ [r.1] else acc.1, acc.2 || r.2)) ([], false)
  (Py.strip (String.intercalate "\n\n" step.1), step.2)

/-- `_render_heading_line` (core.py lines 126-129). -/
def _render_heading_line (node : Section) : String :=
  match node.heading_text with
  | some h => if Py.strip h ≠ "" then Py.strip h else ""
  | Option.none => ""

/-- `_concat_heading_and_body` (core.py lines 132-140). -/
def _concat_heading_and_body (heading_line body : String) : String :=
  if body = "" then (if INCLUDE_HEADING then heading_line else "")
  else if INCLUDE_HEADING ∧ heading_line ≠ "" then heading_line ++ "\n\n" ++ body
  else body

/-- The full rendered text of one section alone: its heading line plus its
own blocks (the unit the budget exception is about). -/
def sectionFullText (s : Section) : String :=
  _concat_heading_and_body (_render_heading_line s) (_render_blocks s.blocks).1

/-- `has_code` of one section's own blocks. -/
def sectionHasCode (s : Section) : Bool :=
  (_render_blocks s.blocks).2

/-- `_ascend_anchor` (core.py lines 145-155): the node's own truthy anchor,
else the nearest ancestor's truthy anchor walking the chain upward. -/
def _ascend_anchor (node : Section) (parent_chain : List Section) : Option String :=
  if Py.truthy node.anchor then node.anchor
  else
    match parent_chain.reverse.find? fun p => Py.truthy p.anchor with
    | some p => p.anchor
    | Option.none => Option.none

/-- The pre-hash key of `_chunk_id` (core.py line 164). -/
def _chunk_key (url_final : String) (anchor : Option String) (seq : Nat) : String :=
  url_final ++ "#" ++ anchor.getD "" ++ "|" ++ toString seq

/-- `_chunk_id` (core.py lines 160-165). -/
def _chunk_id (url_final : String) (anchor : Option String) (seq : Nat) : String :=
  sha1Hex (_chunk_key url_final anchor seq)

/-- `_dedupe_key` (core.py lines 168-172). -/
def _dedupe_key (text : String) (anchor : Option String) : String :=
  sha1Hex (text ++ "|" ++ anchor.getD "")

/-- `_fits` (core.py lines 177-189): `(acceptable, exceeds soft)`. -/
def _fits (next_text current_text : String) : Bool × Bool :=
  let sep := if current_text ≠ "" ∧ next_text ≠ "" then "\n\n" else ""
  let combined := Py.strip (current_text ++ sep ++ next_text)
  let tokens := estimate_tokens combined
  if tokens > HARD_TOKENS then (false, true)
  else (true, decide (tokens > SOFT_TOKENS))

mutual

/-- The recursive search of `_parent_chain_for_node` (core.py lines 425-432)
on one node.  Python compares with `is` (object identity); in this value
embedding the first structurally equal node is found, which coincides with
identity whenever the tree has no duplicated section values. -/
def pcDfs (target : Section) : Section → List Section → Option (List Section)
  | Section.mk l h a b cs, parents =>
    if secBEq (Section.mk l h a b cs) target then some parents
    else pcDfsList target cs (parents ++ [Section.mk l h a b cs])

/-- `_parent_chain_for_node`'s search over a list of nodes. -/
def pcDfsList (target : Section) : List Section → List Section → Option (List Section)
  | [], _ => Option.none
  | c :: cs, parents =>
    match pcDfs target c parents with
    | some chain => some chain
    | Option.none => pcDfsList target cs parents

end

/-- `_parent_chain_for_node` (core.py lines 418-438). -/
def _parent_chain_for_node (target : Section) (sections : List Section) : List Section :=
  (pcDfsList target sections []).getD []

/-- The mutable state threaded through emission: the output list, the seen
dedup keys, and the per-page sequence counter. -/
structure EmitState where
  out : List Chunk
  seen_keys : List String
  seq : Nat
deriving Repr

/-- `_emit_chunk` (core.py lines 194-241). -/
def _emit_chunk (st : EmitState) (page : ParsedPage) (section_node : Section)
    (parent_chain : List Section) (text : String) (has_code : Bool) : EmitState :=
  if text = "" then st
  else
    let url_final := page.provenance.url_final
    let chosen_anchor := _ascend_anchor section_node parent_chain
    let url_citable :=
      if Py.truthy chosen_anchor then url_final ++ "#" ++ chosen_anchor.getD ""
      else url_final
    let key := _dedupe_key text chosen_anchor
    if st.seen_keys.contains key then st
    else
      let level := if section_node.level = 0 then 1 else section_node.level
      let chunk : Chunk :=
        { id := _chunk_id url_final chosen_anchor st.seq
          text := text
          url_final := url_final
          url_citable := url_citable
          title := page.provenance.title
          section_level := level
          section_heading := section_node.heading_text
          section_anchor := chosen_anchor
          fetched_at := page.provenance.fetched_at
          has_code := has_code }
      ⟨st.out ++ [chunk], st.seen_keys ++ [key], st.seq + 1⟩

/-- `_emit_h3_subchunks` (core.py lines 377-413): one chunk per H3, each
anchored to its own node with the H2 as parent chain; empty H3s skipped;
an H3 whose own text exceeds the hard budget is emitted regardless. -/
def _emit_h3_subchunks (st : EmitState) (page : ParsedPage) (h2_parent : Section) :
    List Section → EmitState
  | [] => st
  | h3 :: rest =>
    let h3_text := sectionFullText h3
    if Py.strip h3_text = "" then _emit_h3_subchunks st page h2_parent rest
    else
      _emit_h3_subchunks
        (_emit_chunk st page h3 [h2_parent] h3_text (sectionHasCode h3))
        page h2_parent rest

/-- The inner H3-folding loop of `make_chunks` (core.py lines 274-333) for
one H2 section.  `orig` is the H2's full child list (used by the
`children.index(h3)` resumption slice); the `for`-`else` completion emits
the accumulated text, and a rejected H3 triggers the break into
`_emit_h3_subchunks`. -/
def processH2Children (page : ParsedPage) (h2 : Section) (pchain : List Section)
    (orig : List Section) (st : EmitState) (current_text : String)
    (current_has_code : Bool) : List Section → EmitState
  | [] =>
    if current_text ≠ "" then _emit_chunk st page h2 pchain current_text current_has_code
    else st
  | h3 :: rest =>
    let h3_text_full := sectionFullText h3
    if Py.strip h3_text_full = "" then
      processH2Children page h2 pchain orig st current_text current_has_code rest
    else if (_fits h3_text_full current_text).1 then
      let sep := if current_text ≠ "" ∧ h3_text_full ≠ "" then "\n\n" else ""
      processH2Children page h2 pchain orig st
        (Py.strip (current_text ++ sep ++ h3_text_full))
        (current_has_code || sectionHasCode h3) rest
    else
      let st1 :=
        if current_text ≠ "" then _emit_chunk st page h2 pchain current_text current_has_code
        else st
      _emit_h3_subchunks st1 page h2 (h3 :: orig.drop (orig.indexOf h3 + 1))

/-- The outer H2 loop of `make_chunks` (core.py lines 263-333). -/
def processH2s (page : ParsedPage) (sections : List Section) :
    List Section → EmitState → EmitState
  | [], st => st
  | h2 :: rest, st =>
    let pchain := _parent_chain_for_node h2 sections
    let h2_text := sectionFullText h2
    let st' := processH2Children page h2 pchain h2.children st h2_text
      (sectionHasCode h2) h2.children
    processH2s page sections rest st'

/-- The fallback (no H2) folding loop of `make_chunks` (core.py lines
344-370) over the base section's children. -/
def processH1Children (page : ParsedPage) (h1 : Section) (pchain : List Section) :
    List Section → EmitState → String → Bool → EmitState
  | [], st, text, hc =>
    if text ≠ "" then _emit_chunk st page h1 pchain text hc else st
  | child :: rest, st, text, hc =>
    let ch_text := sectionFullText child
    if ch_text = "" then processH1Children page h1 pchain rest st text hc
    else if (_fits ch_text text).1 then
      let sep := if text ≠ "" ∧ ch_text ≠ "" then "\n\n" else ""
      processH1Children page h1 pchain rest st (Py.strip (text ++ sep ++ ch_text))
        (hc || sectionHasCode child)
    else
      let st1 := if text ≠ "" then _emit_chunk st page h1 pchain text hc else st
      let st2 := _emit_chunk st1 page child (pchain ++ [h1]) ch_text (sectionHasCode child)
      processH1Children page h1 pchain rest st2 "" false

/-- `make_chunks` (core.py lines 246-372). -/
def make_chunks (page : ParsedPage) : List Chunk :=
  let sections := page.sections
  let st0 : EmitState := ⟨[], [], 0⟩
  let h2_nodes := _iter_h2_nodes sections
  if h2_nodes.isEmpty = false then (processH2s page sections h2_nodes st0).out
  else
    let h1 := _first_h1_or_root sections
    let pchain := _parent_chain_for_node h1 sections
    let text := sectionFullText h1
    (processH1Children page h1 pchain h1.children st0 text (sectionHasCode h1)).out

end Chunker

/-! ## HTML structural parser output serialization
(`src/indexing/parser/core.py`, `block_to_dict` / `section_to_dict`) -/

namespace HtmlParse

/-- The parser's in-memory `Block` dataclass (parser/core.py lines 41-51). -/
structure PBlock where
  type : String
  text : Option String := Option.none
  code : Option String := Option.none
  language : Option String := Option.none
  ordered : Option Bool := Option.none
  items : Option (List String) := Option.none
deriving Repr, DecidableEq

/-- The parser's in-memory `Section` dataclass (parser/core.py lines 54-62). -/
inductive PSection where
  | mk (level : Nat) (heading_text : String) (anchor : Option String)
       (blocks : List PBlock) (children : List PSection)
deriving Repr

/-- `block_to_dict` (parser/core.py lines 465-474): note the code content is
serialized under key `code` (not `content`), and `language` appears only
when truthy. -/
def block_to_dict (b : PBlock) : Chunker.Block :=
  if b.type = "paragraph" then { type := "paragraph", text := some (b.text.getD "") }
  else if b.type = "code" then
    { type := "code", code := some (b.code.getD ""),
      language := if Py.truthy b.language then b.language else Option.none }
  else if b.type = "list" then
    { type := "list", ordered := some (b.ordered.getD false), items := some (b.items.getD []) }
  else { type := b.type }

mutual

/-- `section_to_dict` (parser/core.py lines 455-463): the `anchor` key is
present only when truthy. -/
def section_to_dict : PSection → Chunker.Section
  | PSection.mk level heading_text anchor blocks children =>
    Chunker.Section.mk level (some heading_text)
      (if Py.truthy anchor then anchor else Option.none)
      (blocks.map block_to_dict) (sectionsToDicts children)

/-- `section_to_dict` mapped over children. -/
def sectionsToDicts : List PSection → List Chunker.Section
  | [] => []
  | s :: ss => section_to_dict s :: sectionsToDicts ss

end

end HtmlParse

/-! ## Raw-page save paths (`src/indexing/crawler/fetcher_v1.py` and
`src/indexing/crawler/crawler.py`) -/

namespace Fetch

/-- Python `needle in haystack` on character lists. -/
def containsSub (haystack needle : List Char) : Bool :=
  match haystack with
  | [] => needle.isEmpty
  | _ :: rest => Py.startsWithChars haystack needle || containsSub rest needle

/-- The HTTP response as seen by `fetch_and_save`, with the
`<link rel="canonical">` extraction (`_CANONICAL_RE` applied to the body and
resolved with `urljoin` against the effective URL) abstracted into a
pre-resolved optional absolute URL. -/
structure Response where
  url : String
  status_code : Int
  content_type : String
  canonical : Option String
deriving Repr

/-- `_pick_url_final` (fetcher_v1.py lines 103-124): the effective
post-redirect URL, overridden by a same-host http(s) canonical URL. -/
def _pick_url_final (requested : String) (resp : Response) : String :=
  let effective := if resp.url.isEmpty then requested else resp.url
  match resp.canonical with
  | some cand =>
    let eff := Url.urlsplitChars effective.data
    let can := Url.urlsplitChars cand.data
    if (can.scheme = "http".data ∨ can.scheme = "https".data) ∧
        can.netloc.map Url.lowerChar = eff.netloc.map Url.lowerChar then cand
    else effective
  | Option.none => effective

/-- The fields of the per-URL fetch record relevant to the save path. -/
structure FetchOutcome where
  url : String
  url_final : Option String
  host : String
  status_code : Option Int
  html_crudo_path : Option String
  error : Option String
deriving Repr, DecidableEq

/-- `fetch_and_save` (fetcher_v1.py lines 127-176), abstracted over the
network: `robotsAllowed` is the `robots_allows(url)` verdict, `resp` the GET
response, `stamp` the value of `today_stamp()`.  On a 200 HTML response the
body is saved under `data/raw_pages/<host>/<stamp>/<sha1(url)>.html` — the
hash of the REQUESTED (normalized seed) URL. -/
def fetch_and_save (url : String) (robotsAllowed : Bool) (resp : Response)
    (stamp : String) : FetchOutcome :=
  let host := String.mk (Url.urlsplitChars url.data).netloc
  let base : FetchOutcome :=
    { url := url, url_final := Option.none, host := host, status_code := Option.none,
      html_crudo_path := Option.none, error := Option.none }
  if robotsAllowed = false then { base with error := some "robots_disallow" }
  else
    let url_final := _pick_url_final url resp
    if resp.status_code ≠ 200 then
      { base with url_final := some url_final, status_code := some resp.status_code,
                  error := some ("http_" ++ toString resp.status_code) }
    else if containsSub (resp.content_type.data.map Url.lowerChar) "text/html".data = false then
      { base with url_final := some url_final, status_code := some resp.status_code,
                  error := some "non_html" }
    else
      let pid := sha1Hex url
      let out_path := "data/raw_pages/" ++ host ++ "/" ++ stamp ++ "/" ++ pid ++ ".html"
      { base with url_final := some url_final, status_code := some resp.status_code,
                  html_crudo_path := some out_path }

/-- `page_id_for` (crawler.py lines 113-114). -/
def page_id_for (url_canonica : String) : String :=
  sha1Hex url_canonica

/-- The save path built by `Crawler.run` (crawler.py lines 342-347):
`<out_dir>/<netloc(url_canonica)>/<today>/<page_id_for(url_canonica)>.html`. -/
def crawlerSavePath (out_dir today url_canonica : String) : String :=
  let pid := page_id_for url_canonica
  let host := String.mk (Url.urlsplitChars url_canonica.data).netloc
  out_dir ++ "/" ++ host ++ "/" ++ today ++ "/" ++ pid ++ ".html"

end Fetch

/-! ## Decimal-suffix helpers for chunk-key injectivity -/

namespace Chunker

/-- Decimal value of a digit list under an accumulator (Horner). -/
def digitVal (acc : Nat) (l : List Char) : Nat :=
  l.foldl (fun a c => 10 * a + (c.toNat - 48)) acc

/-- The value of the maximal run of decimal digits a string ends with. -/
def keyTrailingVal (s : String) : Nat :=
  digitVal 0 ((s.data.reverse.takeWhile Char.isDigit).reverse)

/-- The invariant relating the emission state to chunk identities: the
sequence counter equals the number of emitted chunks, and the chunk at
position `i` carries the page's url and the id hashed from its own recorded
anchor and position `i`. -/
def IdInv (page : ParsedPage) (st : EmitState) : Prop :=
  st.seq = st.out.length ∧
  ∀ i : Nat, ∀ c : Chunk, st.out[i]? = some c →
    c.url_final = page.provenance.url_final ∧
    c.id = _chunk_id page.provenance.url_final c.section_anchor i

mutual

/-- All section nodes of a forest, in DFS order. -/
def allNodesList : List Section → List Section
  | [] => []
  | s :: rest => allNodesOne s ++ allNodesList rest

/-- A node together with all its descendants. -/
def allNodesOne : Section → List Section
  | Section.mk l h a b cs => Section.mk l h a b cs :: allNodesList cs

end

mutual

/-- Well-formedness of a section tree as the HTML structural parser
guarantees it: every level lies in 1..3 and every child's level strictly
exceeds its parent's. -/
def secWFb : Section → Bool
  | Section.mk l _ _ _ cs => decide (1 ≤ l) && decide (l ≤ 3) && childrenWFb l cs

/-- Well-formedness of a child list under a parent level. -/
def childrenWFb (pl : Nat) : List Section → Bool
  | [] => true
  | c :: cs => decide (pl < c.level) && secWFb c && childrenWFb pl cs

end

/-- The sections the budget exception of the specification names: a single
H3 (level-3 section), an H1-child (child of a level-1 section), or a root
(top-level) section. -/
def Sanctioned (sections : List Section) (s : Section) : Prop :=
  s.level = 3 ∨ s ∈ sections ∨
    ∃ p, p ∈ allNodesList sections ∧ p.level = 1 ∧ s ∈ p.children

/-- A chunk text within budget, or equal to the rendering of one sanctioned
section. -/
def TextOK (sections : List Section) (text : String) : Prop :=
  estimate_tokens text ≤ HARD_TOKENS ∨
    ∃ s, Sanctioned sections s ∧ text = sectionFullText s

/-- Every chunk emitted so far is within budget or the sanctioned rendering
of a single oversized section. -/
def OutOK (sections : List Section) (st : EmitState) : Prop :=
  ∀ c ∈ st.out, estimate_tokens c.text ≤ HARD_TOKENS ∨
    ∃ s, Sanctioned sections s ∧ c.text = sectionFullText s ∧
      HARD_TOKENS < estimate_tokens (sectionFullText s)

end Chunker

/-! ## Concrete inputs used by the theorems below -/

/-- A parser `Block` holding a code sample. -/
def c2_pblock : HtmlParse.PBlock :=
  { type := "code", code := some "print(1)", language := some "python" }

/-- A parsed page as serialized by the structural parser: one H2 section
containing one code block. -/
def c2_page : Chunker.ParsedPage :=
  { provenance :=
      { url_final := "https://h/p/", title := some "T",
        fetched_at := some "2025-01-01T00:00:00" },
    sections :=
      [HtmlParse.section_to_dict
        (HtmlParse.PSection.mk 2 "WithCode" (some "wc") [c2_pblock] [])] }

/-- A 200 `text/html` response reached by a redirect that appended a
trailing slash, with no canonical link in the body. -/
def c8_resp : Fetch.Response :=
  { url := "https://python.langchain.com/docs/", status_code := 200,
    content_type := "text/html; charset=utf-8", canonical := Option.none }

/-- A page with two anchored H2 sections (emits two chunks). -/
def c9_page : Chunker.ParsedPage :=
  { provenance :=
      { url_final := "https://h/p/", title := some "T",
        fetched_at := some "2025-01-01T00:00:00" },
    sections :=
      [Chunker.Section.mk 2 (some "A") (some "a")
        [{ type := "paragraph", text := some "a body" }] [],
       Chunker.Section.mk 2 (some "B") (some "b")
        [{ type := "paragraph", text := some "b body" }] []] }

/-- The first chunk `make_chunks` emits for `c9_page`. -/
def c9_chunk0 : Chunker.Chunk :=
  { id := "7575dcc4acd35e0ffb58eb2c335fbbbe9f39051d", text := "A\n\na body",
    url_final := "https://h/p/", url_citable := "https://h/p/#a",
    title := some "T", section_level := 2, section_heading := some "A",
    section_anchor := some "a", fetched_at := some "2025-01-01T00:00:00",
    has_code := false }

/-! ## Ingestion driver (`src/indexing/indexer/ingest_index.py`) -/

namespace Ingest

/-- Python values as they occur in chunk metadata dictionaries (floats do not
occur in the metadata produced by the chunker, so they are not modelled). -/
inductive PyVal where
  | none
  | str (s : String)
  | int (n : Int)
  | bool (b : Bool)
  | list (xs : List PyVal)
  | dict (kvs : List (String × PyVal))
deriving Repr

/-- Minimal JSON string escaping as performed by `json.dumps` (backslash and
double quote; control characters do not occur in the inputs considered). -/
def jsonEscape (s : String) : String :=
  String.mk (s.data.flatMap fun c =>
    if c == '\\' then ['\\', '\\']
    else if c == '"' then ['\\', '"']
    else [c])

mutual

/-- Python `json.dumps(v, ensure_ascii=False)` with the default separators. -/
def jsonDumps : PyVal → String
  | .none => "null"
  | .str s => "\"" ++ jsonEscape s ++ "\""
  | .int n => toString n
  | .bool b => if b then "true" else "false"
  | .list xs => "[" ++ String.intercalate ", " (jsonDumpsList xs) ++ "]"
  | .dict kvs => "\x7b" ++ String.intercalate ", " (jsonDumpsPairs kvs) ++ "\x7d"

/-- `json.dumps` of the elements of a JSON array. -/
def jsonDumpsList : List PyVal → List String
  | [] => []
  | x :: xs => jsonDumps x :: jsonDumpsList xs

/-- `json.dumps` of the key/value pairs of a JSON object. -/
def jsonDumpsPairs : List (String × PyVal) → List String
  | [] => []
  | (k, v) :: kvs => ("\"" ++ jsonEscape k ++ "\": " ++ jsonDumps v) :: jsonDumpsPairs kvs

end

mutual

/-- Python `str(v)` (`repr` is used for elements of containers; its exact
string-escaping is irrelevant to the claims and kept minimal). -/
def pyStr : PyVal → String
  | .none => "None"
  | .str s => s
  | .int n => toString n
  | .bool b => if b then "True" else "False"
  | .list xs => "[" ++ String.intercalate ", " (pyReprList xs) ++ "]"
  | .dict kvs => "\x7b" ++ String.intercalate ", " (pyReprPairs kvs) ++ "\x7d"

/-- Python `repr(v)` (strings gain quotes; other values print as `str`). -/
def pyRepr : PyVal → String
  | .str s => "'" ++ s ++ "'"
  | .none => "None"
  | .int n => toString n
  | .bool b => if b then "True" else "False"
  | .list xs => "[" ++ String.intercalate ", " (pyReprList xs) ++ "]"
  | .dict kvs => "\x7b" ++ String.intercalate ", " (pyReprPairs kvs) ++ "\x7d"

/-- `repr` of the elements of a Python list. -/
def pyReprList : List PyVal → List String
  | [] => []
  | x :: xs => pyRepr x :: pyReprList xs

/-- `repr` of the items of a Python dict. -/
def pyReprPairs : List (String × PyVal) → List String
  | [] => []
  | (k, v) :: kvs => ("'" ++ k ++ "': " ++ pyRepr v) :: pyReprPairs kvs

end

/-- One metadata value as sanitized by the loop body of `helper_no_null`
(ingest_index.py lines 174-188): `None` becomes `""`; a list is mapped to
strings with `None` entries replaced by `""`; a nested mapping is serialized
with `json.dumps`; scalars pass through. -/
def sanitizeVal : PyVal → PyVal
  | .none => .str ""
  | .list xs => .list (xs.map fun x => match x with
      | .none => .str ""
      | x => .str (pyStr x))
  | .dict kvs => .str (jsonDumps (.dict kvs))
  | .str s => .str s
  | .int n => .int n
  | .bool b => .bool b

/-- An upsert item as built by `prepare_upsert_payload`: `id`, `values`
(the embedding vector, opaque to `helper_no_null`, hence a type parameter)
and a `metadata` mapping (insertion-ordered, as Python dicts are). -/
structure Item (α : Type) where
  id : String
  values : α
  metadata : List (String × PyVal)
deriving Repr

/-- `helper_no_null` (ingest_index.py lines 168-192): builds fresh items whose
metadata values are sanitized; `dict(it)` / `dict(... or ...)` copies are value
copies, so in this embedding the function is a pure map. -/
def helper_no_null {α : Type} (items : List (Item α)) : List (Item α) :=
  items.map fun it =>
    { it with metadata := it.metadata.map fun kv => (kv.1, sanitizeVal kv.2) }

/-- `batch_iter` (ingest_index.py lines 99-111): accumulates a buffer and
yields it as soon as its length EXCEEDS `batch_size`; a final nonempty buffer
is yielded as a partial batch. -/
def batchIterGo {α : Type} (batch_size : Nat) (buf : List α) : List α → List (List α)
  | [] => if buf.isEmpty then [] else [buf]
  | x :: xs =>
    let buf' := buf ++ [x]
    if buf'.length > batch_size then buf' :: batchIterGo batch_size [] xs
    else batchIterGo batch_size buf' xs

/-- `batch_iter(it, batch_size)` applied to a materialised input stream. -/
def batch_iter {α : Type} (it : List α) (batch_size : Nat) : List (List α) :=
  batchIterGo batch_size [] it

end Ingest

/-! ## Indexing orchestrator (`src/indexing/indexer/indexer.py`) -/

namespace Indexer

/-- The keyword-only parameters of `ingest_file(path, *, batch_size, namespace)`
(ingest_index.py lines 199-204). -/
def ingest_file_kwargs : List String := ["batch_size", "namespace"]

/-- The keyword arguments passed at the orchestrator's call site
(indexer.py lines 50-55): `batch_size=BATCH_SIZE, namespace=NAMESPACE,
dry_run=DRY_RUN`. -/
def indexer_call_kwargs : List String := ["batch_size", "namespace", "dry_run"]

/-- Python call semantics for one `ingest_file(...)` invocation: the call
raises `TypeError` when a passed keyword is not among the function's
parameters, and otherwise returns the per-file `(ok, err)` result (abstracted
here as an input, since it depends on network effects). -/
def callIngestFile (result : Nat × Nat) : Except String (Nat × Nat) :=
  if indexer_call_kwargs.all (fun k => ingest_file_kwargs.contains k) then .ok result
  else .error "TypeError: ingest_file() got an unexpected keyword argument dry_run"

/-- The final summary object `{files, ok, errors}` logged by indexer.py. -/
structure Summary where
  files : Nat
  ok : Nat
  errors : Nat
deriving Repr, DecidableEq

/-- The orchestrator's accumulation loop (indexer.py lines 44-62), abstracted
over the list of per-file results the `ingest_file` calls would return. -/
def indexerLoop (acc : Summary) : List (Nat × Nat) → Except String Summary
  | [] => .ok acc
  | r :: rs => do
      let (ok, err) ← callIngestFile r
      indexerLoop ⟨acc.files + 1, acc.ok + ok, acc.errors + err⟩ rs

/-- The whole orchestrator run over the discovered files. -/
def indexer_run (fileResults : List (Nat × Nat)) : Except String Summary :=
  indexerLoop ⟨0, 0, 0⟩ fileResults

end Indexer

/-! ## Rate limiter and backoff (`src/indexing/crawler/rate_limit_backoff.py`) -/

namespace RateLimit

/-- The per-URL fetch record, restricted to the fields inspected by the
rate-limit/backoff wrapper (timing diagnostics are not modelled: they depend
on wall-clock time and randomness and are irrelevant to the retry logic). -/
structure FetchRecord where
  status_code : Option Int
  html_crudo_path : Option String
  error : Option String
  retries : Nat
deriving Repr, DecidableEq

/-- `_should_retry` (rate_limit_backoff.py lines 68-98). -/
def should_retry (rec : FetchRecord) : Bool :=
  let errorStr := match rec.error with
    | some s => s
    | Option.none => ""
  if rec.status_code == some 200 && Py.truthy rec.html_crudo_path then false
  else if rec.status_code == some 429 then true
  else if (match rec.status_code with
           | some st => decide (500 ≤ st) && decide (st ≤ 599)
           | Option.none => false) then true
  else if Py.pyStartsWith errorStr "network:" then true
  else false

/-- The retry-exhaustion marking (rate_limit_backoff.py lines 151-156):
`rec["error"]` is set to `retry_exhausted_after_<max_retries>` only when it
was falsy (`None` or `""`). -/
def markExhausted (max_retries : Nat) (rec : FetchRecord) : FetchRecord :=
  if Py.truthy rec.error then rec
  else { rec with error := some ("retry_exhausted_after_" ++ toString max_retries) }

/-- The `while True` loop of `fetch_with_rate_limit_and_backoff`
(rate_limit_backoff.py lines 138-161), with `fetch_fn` indexed by the number
of calls made so far so the call count is observable.  Returns the final
record (with its `retries` annotation), the retry count, and the total number
of `fetch_fn` calls.  Sleeping (rate limit and backoff) has no effect on the
returned record beyond timing diagnostics and is not modelled. -/
def fetchLoop (fetch_fn : Nat → FetchRecord) (max_retries : Nat) (call attempt : Nat) :
    FetchRecord × Nat × Nat :=
  let rec0 := fetch_fn call
  if should_retry rec0 = false then
    ({ rec0 with retries := attempt }, attempt, call + 1)
  else if max_retries ≤ attempt then
    let rec1 := markExhausted max_retries rec0
    ({ rec1 with retries := attempt }, attempt, call + 1)
  else
    fetchLoop fetch_fn max_retries (call + 1) (attempt + 1)
termination_by max_retries + 1 - attempt
decreasing_by omega

/-- `fetch_with_rate_limit_and_backoff(url, fetch_fn, max_retries=...)`:
the final annotated record. -/
def fetch_with_rate_limit_and_backoff (fetch_fn : Nat → FetchRecord)
    (max_retries : Nat) : FetchRecord :=
  (fetchLoop fetch_fn max_retries 0 0).1

/-- Total number of `fetch_fn` invocations performed by the wrapper. -/
def fetchTotalCalls (fetch_fn : Nat → FetchRecord) (max_retries : Nat) : Nat :=
  (fetchLoop fetch_fn max_retries 0 0).2.2

/-- A record a fetch function can return for every call: HTTP 503 with no
saved HTML and no pre-set error string. -/
def rec503 : FetchRecord :=
  { status_code := some 503, html_crudo_path := Option.none,
    error := Option.none, retries := 0 }

/-- A record with a pre-set network error (retryable, error already set). -/
def recNetwork : FetchRecord :=
  { status_code := Option.none, html_crudo_path := Option.none,
    error := some "network:ReadTimeout", retries := 0 }

end RateLimit

/-! ## RAG response engine (`src/app/rag.py`) -/

namespace Rag

/-- One incoming message as seen by `respond_stream`: `role` / `content`
looked up with a `None` default (absent attributes model as `none`). -/
structure InMessage where
  role : Option String
  content : Option String
deriving Repr

/-- A retrieved LangChain `Document`: page content plus a string-valued
metadata mapping (the metadata fields read by the engine — `title`,
`url_citable`, `url_final`, `source`, `url`, `file_name` — are all strings). -/
structure Doc where
  page_content : String
  metadata : List (String × String)
deriving Repr

/-- Python `metadata.get(k)`: first binding wins, `None` when absent. -/
def mdGet (md : List (String × String)) (k : String) : Option String :=
  (md.find? fun kv => kv.1 == k).map fun kv => kv.2

/-- One citation `{"title": ..., "url": ...}`. -/
structure Citation where
  title : String
  url : String
deriving Repr, DecidableEq

/-- The loop of `build_citations_from_docs` (rag.py lines 149-180), with the
`seen_urls` set threaded explicitly (membership order does not matter, so a
list suffices). -/
def buildCitationsGo (seen : List String) : List Doc → List Citation
  | [] => []
  | d :: ds =>
    let title := mdGet d.metadata "title"
    let url := Py.strOr (mdGet d.metadata "url_citable") (mdGet d.metadata "url_final")
    if Py.truthy url = false then buildCitationsGo seen ds
    else
      let u := url.getD ""
      if seen.contains u then buildCitationsGo seen ds
      else
        let t := if Py.truthy title then title.getD "" else "Fuente"
        ⟨t, u⟩ :: buildCitationsGo (u :: seen) ds

/-- `build_citations_from_docs(docs)`. -/
def build_citations_from_docs (docs : List Doc) : List Citation :=
  buildCitationsGo [] docs

/-- One server-sent event produced by `respond_stream`. -/
inductive Event where
  | chunk (text : String)
  | error (message : String) (detail : Option String)
  | done (citations : List Citation)
deriving Repr, DecidableEq

/-- Terminal events are the error event and the done event. -/
def isTerminal : Event → Bool
  | .chunk _ => false
  | _ => true

/-- Outcome of the streaming chat-model call (`chain.astream` loop, rag.py
lines 357-378): it either completes after yielding a list of token chunks,
is cancelled mid-stream, or raises after yielding some chunks. -/
inductive GenOutcome where
  | ok (chunks : List String)
  | cancelled (chunks : List String)
  | failed (chunks : List String) (detail : String)

/-- Events emitted by the generation loop: one `{chunk: ...}` per non-falsy
token chunk (`if not chunk: continue`). -/
def chunkEvents (cs : List String) : List Event :=
  (cs.filter fun c => !c.isEmpty).map Event.chunk

/-- Step 1 of `respond_stream` (rag.py lines 297-304): keep messages whose
role and content are both truthy. -/
def normalizeMessages (messages : List InMessage) : List (String × String) :=
  messages.filterMap fun m =>
    match m.role, m.content with
    | some r, some c => if r.isEmpty || c.isEmpty then Option.none else some (r, c)
    | _, _ => Option.none

/-- `respond_stream` (rag.py lines 291-390) as a function from the request
messages, the outcome of the retrieval step (`retrieve_relevant_docs`, which
may raise) and the outcome of the generation stream, to the list of emitted
events paired with whether the generation step was invoked at all. -/
def respond_stream (messages : List InMessage) (retrieval : Except String (List Doc))
    (gen : GenOutcome) : List Event × Bool :=
  let normalized := normalizeMessages messages
  if normalized.isEmpty then
    ([Event.error "No se recibieron mensajes válidos." Option.none], false)
  else
    match retrieval with
    | .error e =>
      ([Event.error "Error al recuperar el contexto desde la base vectorial." (some e)],
       false)
    | .ok docs =>
      let citations := build_citations_from_docs docs
      match gen with
      | .ok cs => (chunkEvents cs ++ [Event.done citations], true)
      | .cancelled cs => (chunkEvents cs, true)
      | .failed cs d =>
        (chunkEvents cs ++
          [Event.error "Ocurrió un error al generar la respuesta." (some d)], true)

end Rag

/-! ## Theorems -/

section RagTheorems

/-- Chunk events are never terminal. -/
theorem chunkEvents_not_terminal (cs : List String) :
    (Rag.chunkEvents cs).all (fun e => !Rag.isTerminal e) = true := by
  rw [List.all_eq_true]
  intro e he
  obtain ⟨c, _, rfl⟩ := List.mem_map.mp he
  rfl

/-- A list of non-terminal events followed by one event has no terminal
event outside its last position. -/
theorem dropLast_concat_not_terminal (cs : List String) (t : Rag.Event) :
    ((Rag.chunkEvents cs ++ [t]).dropLast.all fun e => !Rag.isTerminal e) = true := by
  have h : (Rag.chunkEvents cs ++ [t]).dropLast = Rag.chunkEvents cs := by
    simp
  rw [h]
  exact chunkEvents_not_terminal cs

/-- Filtering terminal events out of chunk events yields nothing. -/
theorem filter_terminal_chunkEvents (cs : List String) :
    (Rag.chunkEvents cs).filter Rag.isTerminal = [] := by
  simp only [Rag.chunkEvents, List.filter_map]
  have h : (cs.filter fun c => !c.isEmpty).filter (Rag.isTerminal ∘ Rag.Event.chunk) = [] :=
    List.filter_eq_nil_iff.mpr fun a _ => by simp [Function.comp, Rag.isTerminal]
  rw [h]
  rfl

/-- Claim C3: for every chat request, the event stream of `respond_stream`
contains at most one terminal event, only ever in final position, and a
retrieval failure (on a request with at least one valid message) produces a
stream of exactly one error event with the generation step never invoked. -/
theorem respond_stream_single_terminal (m : List Rag.InMessage)
    (r : Except String (List Rag.Doc)) (g : Rag.GenOutcome) :
    ((Rag.respond_stream m r g).1.dropLast.all fun e => !Rag.isTerminal e) = true ∧
    ((Rag.respond_stream m r g).1.filter Rag.isTerminal).length ≤ 1 ∧
    (∀ e, Rag.normalizeMessages m ≠ [] → r = .error e →
      Rag.respond_stream m r g =
        ([Rag.Event.error "Error al recuperar el contexto desde la base vectorial."
            (some e)], false)) := by
  unfold Rag.respond_stream
  by_cases hm : (Rag.normalizeMessages m).isEmpty
  · refine ⟨by simp [hm], by simp [hm]; rfl, ?_⟩
    intro e hne _
    exact absurd (List.isEmpty_iff.mp hm) hne
  · cases r with
    | error e =>
      refine ⟨by simp [hm], by simp [hm, Rag.isTerminal], ?_⟩
      intro e' _ he
      injection he with h
      subst h
      simp [hm]
    | ok docs =>
      refine ⟨?_, ?_, by intro e' _ he; cases he⟩
      · cases g with
        | ok cs =>
          simpa [hm] using
            dropLast_concat_not_terminal cs (Rag.Event.done (Rag.build_citations_from_docs docs))
        | cancelled cs =>
          simp only [hm, Bool.false_eq_true, ↓reduceIte]
          have hsub := List.dropLast_sublist (Rag.chunkEvents cs)
          have hall := chunkEvents_not_terminal cs
          rw [List.all_eq_true] at hall ⊢
          intro x hx
          exact hall x (hsub.subset hx)
        | failed cs d =>
          simpa [hm] using dropLast_concat_not_terminal cs
            (Rag.Event.error "Ocurrió un error al generar la respuesta." (some d))
      · cases g with
        | ok cs => simp [hm, List.filter_append, filter_terminal_chunkEvents]; rfl
        | cancelled cs => simp [hm, filter_terminal_chunkEvents]
        | failed cs d => simp [hm, List.filter_append, filter_terminal_chunkEvents]; rfl

/-- Witness for C3: a concrete request with one valid message whose retrieval
step raises produces exactly the single error event. -/
theorem respond_stream_single_terminal_witness :
    Rag.normalizeMessages [⟨some "user", some "hola"⟩] ≠ [] ∧
    Rag.respond_stream [⟨some "user", some "hola"⟩] (Except.error "boom")
        (Rag.GenOutcome.ok ["x"]) =
      ([Rag.Event.error "Error al recuperar el contexto desde la base vectorial."
          (some "boom")], false) := by
  refine ⟨by decide, ?_⟩
  exact (respond_stream_single_terminal [⟨some "user", some "hola"⟩]
    (Except.error "boom") (Rag.GenOutcome.ok ["x"])).2.2 "boom" (by decide) rfl

end RagTheorems

section IngestTheorems

/-- Claim C4 (refuted as stated): `batch_iter` with `batch_size = 1` on the
two-element stream `[1, 2]` yields a single batch of TWO elements — the
buffer is flushed only once its length exceeds `batch_size`, so batches of
`batch_size + 1` elements are produced, contradicting the documented
"at most `batch_size`" contract. -/
theorem batch_iter_exceeds_batch_size :
    Ingest.batch_iter [(1 : Nat), 2] 1 = [[1, 2]] ∧
    (Ingest.batch_iter [(1 : Nat), 2] 1).map List.length = [2] := by
  constructor <;> rfl

/-- Claim C10: `helper_no_null` returns items of the same length whose `id`
and `values` fields equal those of the corresponding inputs, whose metadata
keys are unchanged in order, and whose metadata values are exactly the
sanitized copies of the input values. -/
theorem helper_no_null_preserves_inputs {α : Type} (items : List (Ingest.Item α)) :
    (Ingest.helper_no_null items).length = items.length ∧
    (∀ i : Nat, (Ingest.helper_no_null items)[i]?.map (fun it => it.id)
        = items[i]?.map fun it => it.id) ∧
    (∀ i : Nat, (Ingest.helper_no_null items)[i]?.map (fun it => it.values)
        = items[i]?.map fun it => it.values) ∧
    (∀ i : Nat, (Ingest.helper_no_null items)[i]?.map (fun it => it.metadata.map Prod.fst)
        = items[i]?.map fun it => it.metadata.map Prod.fst) ∧
    (∀ i : Nat, (Ingest.helper_no_null items)[i]?.map (fun it => it.metadata)
        = items[i]?.map fun it =>
            it.metadata.map fun kv => (kv.1, Ingest.sanitizeVal kv.2)) := by
  have hkeys : ∀ md : List (String × Ingest.PyVal),
      (md.map fun kv => (kv.1, Ingest.sanitizeVal kv.2)).map Prod.fst = md.map Prod.fst := by
    intro md
    induction md with
    | nil => rfl
    | cons kv rest ih => simp [ih]
  have hmap : Ingest.helper_no_null items = items.map fun it =>
      { it with metadata := it.metadata.map fun kv => (kv.1, Ingest.sanitizeVal kv.2) } := rfl
  refine ⟨by simp [hmap], ?_, ?_, ?_, ?_⟩
  · intro i
    rw [hmap, List.getElem?_map, Option.map_map]
    cases items[i]? with
    | none => rfl
    | some it => rfl
  · intro i
    rw [hmap, List.getElem?_map, Option.map_map]
    cases items[i]? with
    | none => rfl
    | some it => rfl
  · intro i
    rw [hmap, List.getElem?_map, Option.map_map]
    cases items[i]? with
    | none => rfl
    | some it => simp [Function.comp, hkeys]
  · intro i
    rw [hmap, List.getElem?_map, Option.map_map]
    cases items[i]? with
    | none => rfl
    | some it => rfl

end IngestTheorems

section IndexerTheorems

/-- Claim C5 (code bug): the orchestrator's `ingest_file(...)` call passes the
keyword `dry_run`, which `ingest_file(path, *, batch_size, namespace)` does
not accept, so on any non-empty file list the run raises `TypeError` at the
first file instead of accumulating counts; with no files it logs the empty
summary. -/
theorem indexer_first_call_raises (rs : List (Nat × Nat)) (h : rs ≠ []) :
    Indexer.indexer_run rs =
      .error "TypeError: ingest_file() got an unexpected keyword argument dry_run" ∧
    Indexer.indexer_run [] = .ok ⟨0, 0, 0⟩ ∧
    "dry_run" ∈ Indexer.indexer_call_kwargs ∧
    "dry_run" ∉ Indexer.ingest_file_kwargs := by
  refine ⟨?_, rfl, by decide, by decide⟩
  cases rs with
  | nil => exact absurd rfl h
  | cons r rs => rfl

/-- Witness for C5: the run over a single chunk file raises the TypeError. -/
theorem indexer_first_call_raises_witness :
    ([((3 : Nat), (1 : Nat))] ≠ ([] : List (Nat × Nat))) ∧
    Indexer.indexer_run [((3 : Nat), (1 : Nat))] =
      .error "TypeError: ingest_file() got an unexpected keyword argument dry_run" :=
  ⟨by decide, (indexer_first_call_raises [((3 : Nat), (1 : Nat))] (by decide)).1⟩

end IndexerTheorems

section RateLimitTheorems

/-- One unrolling step of the fetch loop while retries remain. -/
theorem fetchLoop_step (f : Nat → RateLimit.FetchRecord)
    (hf : ∀ k, RateLimit.should_retry (f k) = true) (c a : Nat) (ha : a < 3) :
    RateLimit.fetchLoop f 3 c a = RateLimit.fetchLoop f 3 (c + 1) (a + 1) := by
  rw [RateLimit.fetchLoop]
  simp [hf c, Nat.not_le.mpr ha]

/-- The final iteration of the fetch loop at the retry cap. -/
theorem fetchLoop_last (f : Nat → RateLimit.FetchRecord)
    (hf : ∀ k, RateLimit.should_retry (f k) = true) (c : Nat) :
    RateLimit.fetchLoop f 3 c 3 =
      ({ RateLimit.markExhausted 3 (f c) with retries := 3 }, 3, c + 1) := by
  rw [RateLimit.fetchLoop]
  simp [hf c]

/-- Claim C6: a fetch function that always returns a retryable record causes
`fetch_with_rate_limit_and_backoff` with `max_retries = 3` to make exactly 4
calls and report `retries = 3`; when the final record carries no error string
the error is marked `retry_exhausted_after_3`, and when an error string is
already set it is left untouched. -/
theorem fetch_retry_cap (f g : Nat → RateLimit.FetchRecord)
    (hf1 : ∀ k, RateLimit.should_retry (f k) = true)
    (hf2 : ∀ k, Py.truthy (f k).error = false)
    (hg1 : ∀ k, RateLimit.should_retry (g k) = true)
    (hg2 : Py.truthy (g 3).error = true) :
    RateLimit.fetch_with_rate_limit_and_backoff f 3 =
      { f 3 with error := some "retry_exhausted_after_3", retries := 3 } ∧
    RateLimit.fetchTotalCalls f 3 = 4 ∧
    (RateLimit.fetch_with_rate_limit_and_backoff g 3).error = (g 3).error ∧
    (RateLimit.fetch_with_rate_limit_and_backoff g 3).retries = 3 := by
  have unrollf : RateLimit.fetchLoop f 3 0 0 =
      ({ RateLimit.markExhausted 3 (f 3) with retries := 3 }, 3, 4) := by
    rw [fetchLoop_step f hf1 0 0 (by omega), fetchLoop_step f hf1 1 1 (by omega),
      fetchLoop_step f hf1 2 2 (by omega), fetchLoop_last f hf1 3]
  have unrollg : RateLimit.fetchLoop g 3 0 0 =
      ({ RateLimit.markExhausted 3 (g 3) with retries := 3 }, 3, 4) := by
    rw [fetchLoop_step g hg1 0 0 (by omega), fetchLoop_step g hg1 1 1 (by omega),
      fetchLoop_step g hg1 2 2 (by omega), fetchLoop_last g hg1 3]
  have hmf : RateLimit.markExhausted 3 (f 3) =
      { f 3 with error := some "retry_exhausted_after_3" } := by
    rw [RateLimit.markExhausted]
    simp [hf2 3]
    rfl
  have hmg : RateLimit.markExhausted 3 (g 3) = g 3 := by
    rw [RateLimit.markExhausted]
    simp [hg2]
  refine ⟨?_, ?_, ?_, ?_⟩
  · rw [RateLimit.fetch_with_rate_limit_and_backoff, unrollf, hmf]
  · rw [RateLimit.fetchTotalCalls, unrollf]
  · rw [RateLimit.fetch_with_rate_limit_and_backoff, unrollg, hmg]
  · rw [RateLimit.fetch_with_rate_limit_and_backoff, unrollg]

/-- Witness for C6: an always-503 fetch function exhausts the retry budget
with 4 calls, `retries = 3` and the `retry_exhausted_after_3` marker, while a
record with a pre-set `network:` error keeps its own error string. -/
theorem fetch_retry_cap_witness :
    RateLimit.fetch_with_rate_limit_and_backoff (fun _ => RateLimit.rec503) 3 =
      { RateLimit.rec503 with error := some "retry_exhausted_after_3", retries := 3 } ∧
    RateLimit.fetchTotalCalls (fun _ => RateLimit.rec503) 3 = 4 ∧
    (RateLimit.fetch_with_rate_limit_and_backoff (fun _ => RateLimit.recNetwork) 3).error =
      some "network:ReadTimeout" := by
  have h := fetch_retry_cap (fun _ => RateLimit.rec503) (fun _ => RateLimit.recNetwork)
    (fun _ => by show RateLimit.should_retry RateLimit.rec503 = true; decide)
    (fun _ => by show Py.truthy RateLimit.rec503.error = false; decide)
    (fun _ => by show RateLimit.should_retry RateLimit.recNetwork = true; decide)
    (by show Py.truthy RateLimit.recNetwork.error = true; decide)
  refine ⟨h.1, h.2.1, ?_⟩
  rw [h.2.2.1]
  rfl

end RateLimitTheorems

section ChunkPipelineTheorems

set_option maxRecDepth 40000 in
/-- Claim C2 (code bug): the structural parser serializes code content under
the key `code` (`block_to_dict`), but the chunker's `_render_block` reads it
from the key `content`, so the literal code of a parser-produced document is
absent from the rendered chunk text: the sole chunk of a page whose one
section holds the code block `print(1)` is an empty code fence, and for any
code string the rendering of its parser-serialized block is the constant
empty fence. -/
theorem code_content_lost_in_pipeline :
    (Chunker.make_chunks c2_page).map (fun c => c.text) = ["WithCode\n\n```python\n\n```"] ∧
    Fetch.containsSub "WithCode\n\n```python\n\n```".data "print(1)".data = false ∧
    HtmlParse.block_to_dict c2_pblock =
      { type := "code", code := some "print(1)", language := some "python" } ∧
    (∀ s : String,
      (Chunker._render_block { type := "code", code := some s }).1 = "```\n\n```") := by
  refine ⟨by decide, by decide, by decide, ?_⟩
  intro s
  rfl

end ChunkPipelineTheorems

section FetchTheorems

set_option maxRecDepth 40000 in
/-- Counterexample to claim C8 as stated: for a seed URL that redirects to a
canonical URL with a trailing slash, the depth-0 fetcher records the
canonical URL as `url_final` but names the saved file after the SHA-1 of the
REQUESTED URL, which differs from the SHA-1 of the canonical URL. -/
theorem fetcher_filename_not_canonical :
    (Fetch.fetch_and_save "https://python.langchain.com/docs" true c8_resp
        "20250101").url_final = some "https://python.langchain.com/docs/" ∧
    (Fetch.fetch_and_save "https://python.langchain.com/docs" true c8_resp
        "20250101").html_crudo_path =
      some ("data/raw_pages/python.langchain.com/20250101/" ++
        sha1Hex "https://python.langchain.com/docs" ++ ".html") ∧
    sha1Hex "https://python.langchain.com/docs" ≠
      sha1Hex "https://python.langchain.com/docs/" := by
  refine ⟨by decide, by decide, by decide⟩

/-- Claim C8 (amended): both stages save under
`<base>/<host>/<date>/<sha1>.html`, but the crawler hashes the canonical URL
while the depth-0 fetcher hashes the requested URL. -/
theorem raw_page_save_paths (url stamp : String) (resp : Fetch.Response)
    (h200 : resp.status_code = 200)
    (hhtml : Fetch.containsSub (resp.content_type.data.map Url.lowerChar)
      "text/html".data = true)
    (outDir today urlCan : String) :
    (Fetch.fetch_and_save url true resp stamp).html_crudo_path =
      some ("data/raw_pages/" ++ String.mk (Url.urlsplitChars url.data).netloc ++
        "/" ++ stamp ++ "/" ++ sha1Hex url ++ ".html") ∧
    Fetch.crawlerSavePath outDir today urlCan =
      outDir ++ "/" ++ String.mk (Url.urlsplitChars urlCan.data).netloc ++ "/" ++
        today ++ "/" ++ sha1Hex urlCan ++ ".html" := by
  constructor
  · unfold Fetch.fetch_and_save
    simp [h200, hhtml]
  · rfl

set_option maxRecDepth 40000 in
/-- Witness for the amended C8 at a concrete 200 HTML response. -/
theorem raw_page_save_paths_witness :
    (Fetch.fetch_and_save "https://python.langchain.com/docs" true c8_resp
        "20250101").html_crudo_path =
      some ("data/raw_pages/" ++
        String.mk (Url.urlsplitChars "https://python.langchain.com/docs".data).netloc ++
        "/" ++ "20250101" ++ "/" ++ sha1Hex "https://python.langchain.com/docs" ++
        ".html") ∧
    Fetch.crawlerSavePath "data/raw_pages" "20250101" "https://h/x/" =
      "data/raw_pages" ++ "/" ++
        String.mk (Url.urlsplitChars "https://h/x/".data).netloc ++ "/" ++
        "20250101" ++ "/" ++ sha1Hex "https://h/x/" ++ ".html" :=
  raw_page_save_paths "https://python.langchain.com/docs" "20250101" c8_resp
    (by decide) (by decide) "data/raw_pages" "20250101" "https://h/x/"

end FetchTheorems

section ChunkIdTheorems

/-- Characters produced by `Nat.digitChar` below 10 are decimal digits with
the expected code points. -/
theorem digitChar_spec (d : Nat) (hd : d < 10) :
    (Nat.digitChar d).toNat = 48 + d ∧ (Nat.digitChar d).isDigit = true := by
  interval_cases d <;> exact ⟨rfl, rfl⟩

/-- `Nat.toDigitsCore` prepends digit characters. -/
theorem toDigitsCore_digits (f : Nat) :
    ∀ (n : Nat) (l : List Char), (∀ c ∈ l, c.isDigit = true) →
      ∀ c ∈ Nat.toDigitsCore 10 f n l, c.isDigit = true := by
  induction f with
  | zero => intro n l hl c hc; exact hl c hc
  | succ f ih =>
    intro n l hl c hc
    rw [Nat.toDigitsCore] at hc
    have hdig : ∀ x ∈ Nat.digitChar (n % 10) :: l, x.isDigit = true := by
      intro x hx
      rcases List.mem_cons.mp hx with h | h
      · subst h; exact (digitChar_spec (n % 10) (Nat.mod_lt n (by omega))).2
      · exact hl x h
    by_cases h0 : n / 10 = 0
    · simp only [h0, if_pos rfl] at hc
      exact hdig c hc
    · simp only [if_neg h0] at hc
      exact ih (n / 10) (Nat.digitChar (n % 10) :: l) hdig c hc

/-- `Nat.toDigitsCore` computes the decimal representation: reading it back
with `digitVal` recovers the number. -/
theorem toDigitsCore_val (f : Nat) :
    ∀ (n : Nat) (l : List Char), n < 10 ^ f →
      Chunker.digitVal 0 (Nat.toDigitsCore 10 f n l) = Chunker.digitVal n l := by
  induction f with
  | zero =>
    intro n l hn
    have : n = 0 := by simpa using hn
    subst this
    rfl
  | succ f ih =>
    intro n l hn
    rw [Nat.toDigitsCore]
    have hd : (Nat.digitChar (n % 10)).toNat = 48 + n % 10 :=
      (digitChar_spec (n % 10) (Nat.mod_lt n (by omega))).1
    by_cases h0 : n / 10 = 0
    · simp only [h0, if_pos rfl]
      have hn10 : n % 10 = n := by omega
      rw [hn10] at hd ⊢
      have h48 : (Nat.digitChar n).toNat - 48 = n := by omega
      simp [Chunker.digitVal, h48]
    · simp only [if_neg h0]
      have hlt : n / 10 < 10 ^ f := by
        rw [pow_succ] at hn
        exact Nat.div_lt_of_lt_mul (by omega)
      rw [ih (n / 10) (Nat.digitChar (n % 10) :: l) hlt]
      have : (10 * (n / 10) + ((Nat.digitChar (n % 10)).toNat - 48)) = n := by omega
      simp [Chunker.digitVal, this]

/-- Reading back `toString n` recovers `n`, and it consists of digits. -/
theorem toString_nat_val (n : Nat) :
    Chunker.digitVal 0 (toString n).data = n ∧
    ∀ c ∈ (toString n).data, c.isDigit = true := by
  have hdata : (toString n).data = Nat.toDigitsCore 10 (n + 1) n [] := rfl
  have hlt : n < 10 ^ (n + 1) :=
    lt_of_lt_of_le (Nat.lt_pow_self (by omega) n) (Nat.pow_le_pow_right (by omega) (by omega))
  constructor
  · rw [hdata, toDigitsCore_val (n + 1) n [] hlt]
    rfl
  · rw [hdata]
    exact toDigitsCore_digits (n + 1) n [] (by intro c hc; cases hc)

/-- `takeWhile` over a digit block followed by a non-digit stops exactly at
the block. -/
theorem takeWhile_digits_append (l1 l2 : List Char)
    (h1 : ∀ c ∈ l1, c.isDigit = true)
    (h2 : l2.head?.all (fun c => !c.isDigit) = true) :
    (l1 ++ l2).takeWhile Char.isDigit = l1 := by
  induction l1 with
  | nil =>
    cases l2 with
    | nil => rfl
    | cons c cs =>
      simp only [List.head?, Option.all] at h2
      have hcd : c.isDigit = false := by
        cases hd : c.isDigit
        · rfl
        · rw [hd] at h2; cases h2
      simp [List.takeWhile, hcd]
  | cons c cs ih =>
    have hc : c.isDigit = true := h1 c (List.mem_cons_self c cs)
    simp only [List.cons_append, List.takeWhile_cons, hc, if_pos]
    rw [ih (fun x hx => h1 x (List.mem_cons_of_mem c hx))]

/-- The trailing decimal value of a chunk key is its sequence number. -/
theorem keyTrailingVal_chunk_key (u : String) (a : Option String) (i : Nat) :
    Chunker.keyTrailingVal (Chunker._chunk_key u a i) = i := by
  have hkey : (Chunker._chunk_key u a i).data =
      (u ++ "#" ++ a.getD "" ++ "|").data ++ (toString i).data := by
    simp [Chunker._chunk_key, String.data_append]
  have hbar : (u ++ "#" ++ a.getD "" ++ "|").data.reverse =
      '|' :: (u ++ "#" ++ a.getD "").data.reverse := by
    simp [String.data_append]
  rw [Chunker.keyTrailingVal, hkey, List.reverse_append, hbar,
    takeWhile_digits_append _ _ (by
      intro c hc
      exact (toString_nat_val i).2 c (List.mem_reverse.mp hc)) (by rfl),
    List.reverse_reverse]
  exact (toString_nat_val i).1

/-- `_emit_chunk` preserves the id invariant. -/
theorem emit_chunk_IdInv (page : Chunker.ParsedPage) (st : Chunker.EmitState)
    (node : Chunker.Section) (chain : List Chunker.Section) (text : String)
    (hc : Bool) (h : Chunker.IdInv page st) :
    Chunker.IdInv page (Chunker._emit_chunk st page node chain text hc) := by
  unfold Chunker._emit_chunk
  dsimp only
  split
  · exact h
  · split
    · exact h
    · obtain ⟨hlen, hall⟩ := h
      refine ⟨by simp [hlen], ?_⟩
      intro i c hic
      rcases Nat.lt_trichotomy i st.out.length with hi | hi | hi
      · rw [List.getElem?_append_left hi] at hic
        exact hall i c hic
      · subst hi
        rw [List.getElem?_concat_length] at hic
        injection hic with hc2
        subst hc2
        exact ⟨rfl, by rw [hlen]⟩
      · rw [List.getElem?_eq_none (by simp; omega)] at hic
        cases hic

/-- `_emit_h3_subchunks` preserves the id invariant. -/
theorem emit_h3_subchunks_IdInv (page : Chunker.ParsedPage) (h2p : Chunker.Section)
    (l : List Chunker.Section) :
    ∀ st : Chunker.EmitState, Chunker.IdInv page st →
      Chunker.IdInv page (Chunker._emit_h3_subchunks st page h2p l) := by
  induction l with
  | nil => intro st h; exact h
  | cons h3 rest ih =>
    intro st h
    rw [Chunker._emit_h3_subchunks]
    by_cases hs : Py.strip (Chunker.sectionFullText h3) = ""
    · simp only [hs, if_pos rfl]
      exact ih st h
    · simp only [if_neg hs]
      exact ih _ (emit_chunk_IdInv page st h3 [h2p] _ _ h)

/-- The H3-folding loop preserves the id invariant. -/
theorem processH2Children_IdInv (page : Chunker.ParsedPage) (h2 : Chunker.Section)
    (pchain orig : List Chunker.Section) (l : List Chunker.Section) :
    ∀ (st : Chunker.EmitState) (cur : String) (chc : Bool), Chunker.IdInv page st →
      Chunker.IdInv page (Chunker.processH2Children page h2 pchain orig st cur chc l) := by
  induction l with
  | nil =>
    intro st cur chc h
    rw [Chunker.processH2Children]
    by_cases hc : cur ≠ ""
    · simp only [if_pos hc]
      exact emit_chunk_IdInv page st h2 pchain cur chc h
    · simp only [if_neg hc]
      exact h
  | cons h3 rest ih =>
    intro st cur chc h
    rw [Chunker.processH2Children]
    by_cases hs : Py.strip (Chunker.sectionFullText h3) = ""
    · simp only [hs, if_pos rfl]
      exact ih st cur chc h
    · simp only [if_neg hs]
      by_cases hf : (Chunker._fits (Chunker.sectionFullText h3) cur).1 = true
      · simp only [hf, if_pos rfl]
        exact ih st _ _ h
      · simp only [if_neg hf]
        refine emit_h3_subchunks_IdInv page h2 _ _ ?_
        by_cases hc : cur ≠ ""
        · simp only [if_pos hc]
          exact emit_chunk_IdInv page st h2 pchain cur chc h
        · simp only [if_neg hc]
          exact h

/-- The H2 loop preserves the id invariant. -/
theorem processH2s_IdInv (page : Chunker.ParsedPage) (sections : List Chunker.Section)
    (l : List Chunker.Section) :
    ∀ st : Chunker.EmitState, Chunker.IdInv page st →
      Chunker.IdInv page (Chunker.processH2s page sections l st) := by
  induction l with
  | nil => intro st h; exact h
  | cons h2 rest ih =>
    intro st h
    rw [Chunker.processH2s]
    exact ih _ (processH2Children_IdInv page h2 _ _ _ st _ _ h)

/-- The fallback loop preserves the id invariant. -/
theorem processH1Children_IdInv (page : Chunker.ParsedPage) (h1 : Chunker.Section)
    (pchain : List Chunker.Section) (l : List Chunker.Section) :
    ∀ (st : Chunker.EmitState) (text : String) (hcode : Bool), Chunker.IdInv page st →
      Chunker.IdInv page (Chunker.processH1Children page h1 pchain l st text hcode) := by
  induction l with
  | nil =>
    intro st text hcode h
    rw [Chunker.processH1Children]
    by_cases hc : text ≠ ""
    · simp only [if_pos hc]
      exact emit_chunk_IdInv page st h1 pchain text hcode h
    · simp only [if_neg hc]
      exact h
  | cons child rest ih =>
    intro st text hcode h
    rw [Chunker.processH1Children]
    by_cases hs : Chunker.sectionFullText child = ""
    · simp only [hs, if_pos rfl]
      exact ih st text hcode h
    · simp only [if_neg hs]
      by_cases hf : (Chunker._fits (Chunker.sectionFullText child) text).1 = true
      · simp only [hf, if_pos rfl]
        exact ih st _ _ h
      · simp only [if_neg hf]
        refine ih _ "" false ?_
        refine emit_chunk_IdInv page _ child (pchain ++ [h1]) _ _ ?_
        by_cases hc : text ≠ ""
        · simp only [if_pos hc]
          exact emit_chunk_IdInv page st h1 pchain text hcode h
        · simp only [if_neg hc]
          exact h

/-- Claim C9: every chunk emitted by `make_chunks` carries the page's final
url and an id hashed from its own recorded anchor and its position in the
emission order (a fresh per-page sequence number), and the pre-hash id keys
of distinct sequence numbers for the same page are always distinct. -/
theorem chunk_ids_distinct (page : Chunker.ParsedPage) :
    (∀ i : Nat, ∀ c : Chunker.Chunk, (Chunker.make_chunks page)[i]? = some c →
      c.url_final = page.provenance.url_final ∧
      c.id = Chunker._chunk_id page.provenance.url_final c.section_anchor i) ∧
    (∀ i j : Nat, ∀ a b : Option String, i ≠ j →
      Chunker._chunk_key page.provenance.url_final a i ≠
        Chunker._chunk_key page.provenance.url_final b j) := by
  constructor
  · have h0 : Chunker.IdInv page ⟨[], [], 0⟩ := ⟨rfl, by intro i c hic; cases hic⟩
    rw [Chunker.make_chunks]
    by_cases hh : (Chunker._iter_h2_nodes page.sections).isEmpty = false
    · simp only [hh, if_pos rfl]
      exact (processH2s_IdInv page page.sections _ _ h0).2
    · simp only [if_neg hh]
      exact (processH1Children_IdInv page _ _ _ _ _ _ h0).2
  · intro i j a b hij heq
    have := keyTrailingVal_chunk_key page.provenance.url_final a i
    rw [heq, keyTrailingVal_chunk_key] at this
    exact hij this.symm

set_option maxRecDepth 60000 in
/-- Witness for C9: on a concrete two-chunk page, the first chunk's id is the
hash of its anchor with sequence number 0, and the keys for sequence numbers
0 and 1 differ. -/
theorem chunk_ids_distinct_witness :
    c9_chunk0.url_final = c9_page.provenance.url_final ∧
    c9_chunk0.id = Chunker._chunk_id c9_page.provenance.url_final
      c9_chunk0.section_anchor 0 ∧
    Chunker._chunk_key c9_page.provenance.url_final (some "a") 0 ≠
      Chunker._chunk_key c9_page.provenance.url_final (some "b") 1 := by
  have h := chunk_ids_distinct c9_page
  have h1 := h.1 0 c9_chunk0 (by decide)
  exact ⟨h1.1, h1.2, h.2 0 1 (some "a") (some "b") (by decide) ⟩

end ChunkIdTheorems

section ChunkBudgetTheorems

/-- Unfolding `Section.level` on a constructor. -/
theorem section_level_mk (l : Nat) (hh aa : Option String) (bb : List Chunker.Block)
    (cs : List Chunker.Section) : (Chunker.Section.mk l hh aa bb cs).level = l := rfl

/-- A child list passing `childrenWFb` has strictly deeper, well-formed
children. -/
theorem childrenWFb_spec (pl : Nat) (cs : List Chunker.Section)
    (h : Chunker.childrenWFb pl cs = true) :
    ∀ c ∈ cs, pl < c.level ∧ Chunker.secWFb c = true := by
  induction cs with
  | nil => intro c hc; cases hc
  | cons c0 rest ih =>
    rw [Chunker.childrenWFb] at h
    simp only [Bool.and_eq_true, decide_eq_true_eq] at h
    intro c hc
    rcases List.mem_cons.mp hc with he | hm
    · subst he; exact ⟨h.1.1, h.1.2⟩
    · exact ih h.2 c hm

/-- A well-formed section has level between 1 and 3. -/
theorem secWFb_level (s : Chunker.Section) (h : Chunker.secWFb s = true) :
    1 ≤ s.level ∧ s.level ≤ 3 := by
  cases s with
  | mk l hh aa bb cs =>
    rw [Chunker.secWFb] at h
    simp only [Bool.and_eq_true, decide_eq_true_eq] at h
    exact ⟨h.1.1, h.1.2⟩

/-- A well-formed section's children are strictly deeper and well-formed. -/
theorem secWFb_children (s : Chunker.Section) (h : Chunker.secWFb s = true) :
    ∀ c ∈ s.children, s.level < c.level ∧ Chunker.secWFb c = true := by
  cases s with
  | mk l hh aa bb cs =>
    rw [Chunker.secWFb] at h
    simp only [Bool.and_eq_true, decide_eq_true_eq] at h
    exact childrenWFb_spec l cs h.2

/-- Every section is among its own node closure. -/
theorem self_mem_allNodesOne (s : Chunker.Section) : s ∈ Chunker.allNodesOne s := by
  cases s with
  | mk l hh aa bb cs =>
    rw [Chunker.allNodesOne]
    exact List.mem_cons_self _ _

/-- Top-level sections belong to the node closure of the forest. -/
theorem mem_allNodesList_of_mem (secs : List Chunker.Section) (s : Chunker.Section)
    (h : s ∈ secs) : s ∈ Chunker.allNodesList secs := by
  induction secs with
  | nil => cases h
  | cons t rest ih =>
    rw [Chunker.allNodesList]
    rcases List.mem_cons.mp h with he | hm
    · subst he; exact List.mem_append.mpr (Or.inl (self_mem_allNodesOne s))
    · exact List.mem_append.mpr (Or.inr (ih hm))

mutual

/-- Sections found by `_iter_h2_nodes` are level 2, lie in the node closure,
and are top-level sections or children of level-1 nodes. -/
theorem iterH2_props : ∀ (secs : List Chunker.Section),
    ∀ x ∈ Chunker._iter_h2_nodes secs,
      x.level = 2 ∧ x ∈ Chunker.allNodesList secs ∧
        (x ∈ secs ∨ ∃ p, p ∈ Chunker.allNodesList secs ∧ p.level = 1 ∧ x ∈ p.children)
  | [], x, hx => by rw [Chunker._iter_h2_nodes] at hx; cases hx
  | s :: rest, x, hx => by
    rw [Chunker._iter_h2_nodes] at hx
    rcases List.mem_append.mp hx with hm | hm
    · obtain ⟨hl, hmem, hplace⟩ := iterH2_props_one s x hm
      refine ⟨hl, by rw [Chunker.allNodesList]; exact List.mem_append.mpr (Or.inl hmem), ?_⟩
      rcases hplace with he | ⟨p, hp, hpl, hpc⟩
      · exact Or.inl (List.mem_cons.mpr (Or.inl he))
      · exact Or.inr ⟨p,
          by rw [Chunker.allNodesList]; exact List.mem_append.mpr (Or.inl hp), hpl, hpc⟩
    · obtain ⟨hl, hmem, hplace⟩ := iterH2_props rest x hm
      refine ⟨hl, by rw [Chunker.allNodesList]; exact List.mem_append.mpr (Or.inr hmem), ?_⟩
      rcases hplace with he | ⟨p, hp, hpl, hpc⟩
      · exact Or.inl (List.mem_cons_of_mem s he)
      · exact Or.inr ⟨p,
          by rw [Chunker.allNodesList]; exact List.mem_append.mpr (Or.inr hp), hpl, hpc⟩

/-- The contribution of one node to `_iter_h2_nodes`. -/
theorem iterH2_props_one : ∀ (s : Chunker.Section), ∀ x ∈ Chunker._iter_h2_one s,
    x.level = 2 ∧ x ∈ Chunker.allNodesOne s ∧
      (x = s ∨ ∃ p, p ∈ Chunker.allNodesOne s ∧ p.level = 1 ∧ x ∈ p.children)
  | Chunker.Section.mk l hh aa bb cs, x, hx => by
    rw [Chunker._iter_h2_one] at hx
    by_cases h2 : l = 2
    · rw [if_pos h2] at hx
      have hxe := List.eq_of_mem_singleton hx
      subst hxe
      exact ⟨by rw [section_level_mk]; exact h2, self_mem_allNodesOne _, Or.inl rfl⟩
    · rw [if_neg h2] at hx
      by_cases h1 : l = 1
      · rw [if_pos h1] at hx
        obtain ⟨hl, hmem, hplace⟩ := iterH2_props cs x hx
        refine ⟨hl, by rw [Chunker.allNodesOne]; exact List.mem_cons_of_mem _ hmem, ?_⟩
        rcases hplace with hc | ⟨p, hp, hpl, hpc⟩
        · refine Or.inr ⟨Chunker.Section.mk l hh aa bb cs, self_mem_allNodesOne _,
            by rw [section_level_mk]; exact h1, hc⟩
        · exact Or.inr ⟨p, by rw [Chunker.allNodesOne]; exact List.mem_cons_of_mem _ hp,
            hpl, hpc⟩
      · rw [if_neg h1] at hx
        cases hx

end

mutual

/-- Well-formedness propagates to every node of the closure of a forest. -/
theorem wf_allNodesList : ∀ (secs : List Chunker.Section),
    (∀ s ∈ secs, Chunker.secWFb s = true) →
      ∀ x ∈ Chunker.allNodesList secs, Chunker.secWFb x = true
  | [], _, x, hx => by rw [Chunker.allNodesList] at hx; cases hx
  | s :: rest, hwf, x, hx => by
    rw [Chunker.allNodesList] at hx
    rcases List.mem_append.mp hx with hm | hm
    · exact wf_allNodesOne s (hwf s (List.mem_cons_self s rest)) x hm
    · exact wf_allNodesList rest (fun t ht => hwf t (List.mem_cons_of_mem s ht)) x hm

/-- Well-formedness propagates to every node of one tree's closure. -/
theorem wf_allNodesOne : ∀ (s : Chunker.Section), Chunker.secWFb s = true →
    ∀ x ∈ Chunker.allNodesOne s, Chunker.secWFb x = true
  | Chunker.Section.mk l hh aa bb cs, hwf, x, hx => by
    rw [Chunker.allNodesOne] at hx
    rcases List.mem_cons.mp hx with hxe | hm
    · subst hxe; exact hwf
    · have hcs : ∀ c ∈ cs, Chunker.secWFb c = true := by
        have h := secWFb_children (Chunker.Section.mk l hh aa bb cs) hwf
        exact fun c hc => (h c hc).2
      exact wf_allNodesList cs hcs x hm

end

/-- An accepted `_fits` keeps the combined, stripped text within the hard
budget. -/
theorem fits_le (next cur : String) (h : (Chunker._fits next cur).1 = true) :
    Chunker.estimate_tokens
      (Py.strip (cur ++ (if cur ≠ "" ∧ next ≠ "" then "\n\n" else "") ++ next)) ≤
      Chunker.HARD_TOKENS := by
  unfold Chunker._fits at h
  dsimp only at h
  by_cases hb : Chunker.estimate_tokens
      (Py.strip (cur ++ (if cur ≠ "" ∧ next ≠ "" then "\n\n" else "") ++ next)) >
      Chunker.HARD_TOKENS
  · rw [if_pos hb] at h
    cases h
  · omega

/-- `_emit_chunk` preserves the budget property when the emitted text is
within budget or the rendering of one sanctioned section. -/
theorem emit_chunk_OutOK (secs : List Chunker.Section) (page : Chunker.ParsedPage)
    (st : Chunker.EmitState) (node : Chunker.Section) (chain : List Chunker.Section)
    (text : String) (hcode : Bool) (hout : Chunker.OutOK secs st)
    (htext : Chunker.TextOK secs text) :
    Chunker.OutOK secs (Chunker._emit_chunk st page node chain text hcode) := by
  unfold Chunker._emit_chunk
  dsimp only
  split
  · exact hout
  · split
    · exact hout
    · intro c hcmem
      rcases List.mem_append.mp hcmem with hm | hm
      · exact hout c hm
      · have hce := List.eq_of_mem_singleton hm
        subst hce
        rcases htext with hle | ⟨s, hs, heq⟩
        · exact Or.inl hle
        · by_cases hbig : Chunker.estimate_tokens text ≤ Chunker.HARD_TOKENS
          · exact Or.inl hbig
          · exact Or.inr ⟨s, hs, heq, by rw [← heq]; omega⟩

/-- `_emit_h3_subchunks` preserves the budget property when every listed
section is sanctioned. -/
theorem emit_h3_OutOK (secs : List Chunker.Section) (page : Chunker.ParsedPage)
    (h2p : Chunker.Section) (l : List Chunker.Section)
    (hl : ∀ x ∈ l, Chunker.Sanctioned secs x) :
    ∀ st : Chunker.EmitState, Chunker.OutOK secs st →
      Chunker.OutOK secs (Chunker._emit_h3_subchunks st page h2p l) := by
  induction l with
  | nil => intro st h; exact h
  | cons h3 rest ih =>
    intro st h
    rw [Chunker._emit_h3_subchunks]
    have hrest : ∀ x ∈ rest, Chunker.Sanctioned secs x :=
      fun x hx => hl x (List.mem_cons_of_mem h3 hx)
    by_cases hs : Py.strip (Chunker.sectionFullText h3) = ""
    · simp only [hs, if_pos rfl]
      exact ih hrest st h
    · simp only [if_neg hs]
      refine ih hrest _ (emit_chunk_OutOK secs page st h3 [h2p] _ _ h ?_)
      exact Or.inr ⟨h3, hl h3 (List.mem_cons_self h3 rest), rfl⟩

/-- The H3-folding loop preserves the budget property. -/
theorem processH2Children_OutOK (secs : List Chunker.Section)
    (page : Chunker.ParsedPage) (h2 : Chunker.Section)
    (pchain orig : List Chunker.Section)
    (horig : ∀ x ∈ orig, Chunker.Sanctioned secs x)
    (hbase : Chunker.Sanctioned secs h2) (l : List Chunker.Section) :
    ∀ (st : Chunker.EmitState) (cur : String) (chc : Bool),
      Chunker.OutOK secs st →
      (Chunker.estimate_tokens cur ≤ Chunker.HARD_TOKENS ∨
        cur = Chunker.sectionFullText h2) →
      (∀ x ∈ l, Chunker.Sanctioned secs x) →
      Chunker.OutOK secs (Chunker.processH2Children page h2 pchain orig st cur chc l) := by
  induction l with
  | nil =>
    intro st cur chc hout hcur _
    rw [Chunker.processH2Children]
    by_cases hc : cur ≠ ""
    · simp only [if_pos hc]
      refine emit_chunk_OutOK secs page st h2 pchain cur chc hout ?_
      rcases hcur with h | h
      · exact Or.inl h
      · exact Or.inr ⟨h2, hbase, h⟩
    · simp only [if_neg hc]
      exact hout
  | cons h3 rest ih =>
    intro st cur chc hout hcur hl
    rw [Chunker.processH2Children]
    have hrest : ∀ x ∈ rest, Chunker.Sanctioned secs x :=
      fun x hx => hl x (List.mem_cons_of_mem h3 hx)
    by_cases hs : Py.strip (Chunker.sectionFullText h3) = ""
    · simp only [hs, if_pos rfl]
      exact ih st cur chc hout hcur hrest
    · simp only [if_neg hs]
      by_cases hf : (Chunker._fits (Chunker.sectionFullText h3) cur).1 = true
      · simp only [hf, if_pos rfl]
        refine ih st _ _ hout (Or.inl ?_) hrest
        exact fits_le (Chunker.sectionFullText h3) cur hf
      · simp only [if_neg hf]
        have hres : ∀ x ∈ h3 :: orig.drop (orig.indexOf h3 + 1),
            Chunker.Sanctioned secs x := by
          intro x hx
          rcases List.mem_cons.mp hx with he | hm
          · rw [he]; exact hl h3 (List.mem_cons_self h3 rest)
          · exact horig x (List.mem_of_mem_drop hm)
        refine emit_h3_OutOK secs page h2 _ hres _ ?_
        by_cases hc : cur ≠ ""
        · simp only [if_pos hc]
          refine emit_chunk_OutOK secs page st h2 pchain cur chc hout ?_
          rcases hcur with h | h
          · exact Or.inl h
          · exact Or.inr ⟨h2, hbase, h⟩
        · simp only [if_neg hc]
          exact hout

/-- The H2 loop preserves the budget property. -/
theorem processH2s_OutOK (secs : List Chunker.Section) (page : Chunker.ParsedPage)
    (sections : List Chunker.Section) (l : List Chunker.Section)
    (hl : ∀ x ∈ l, Chunker.Sanctioned secs x ∧
      ∀ c ∈ x.children, Chunker.Sanctioned secs c) :
    ∀ st : Chunker.EmitState, Chunker.OutOK secs st →
      Chunker.OutOK secs (Chunker.processH2s page sections l st) := by
  induction l with
  | nil => intro st h; exact h
  | cons h2 rest ih =>
    intro st h
    rw [Chunker.processH2s]
    have hh2 := hl h2 (List.mem_cons_self h2 rest)
    refine ih (fun x hx => hl x (List.mem_cons_of_mem h2 hx)) _ ?_
    exact processH2Children_OutOK secs page h2 _ h2.children hh2.2 hh2.1 h2.children
      st _ _ h (Or.inr rfl) hh2.2

/-- The fallback loop preserves the budget property. -/
theorem processH1Children_OutOK (secs : List Chunker.Section)
    (page : Chunker.ParsedPage) (h1 : Chunker.Section) (pchain : List Chunker.Section)
    (hbase : Chunker.Sanctioned secs h1 ∨ Chunker.sectionFullText h1 = "")
    (l : List Chunker.Section) (hl : ∀ x ∈ l, Chunker.Sanctioned secs x) :
    ∀ (st : Chunker.EmitState) (text : String) (hcode : Bool),
      Chunker.OutOK secs st →
      (Chunker.estimate_tokens text ≤ Chunker.HARD_TOKENS ∨
        text = Chunker.sectionFullText h1) →
      Chunker.OutOK secs (Chunker.processH1Children page h1 pchain l st text hcode) := by
  induction l with
  | nil =>
    intro st text hcode hout htext
    rw [Chunker.processH1Children]
    by_cases hc : text ≠ ""
    · simp only [if_pos hc]
      refine emit_chunk_OutOK secs page st h1 pchain text hcode hout ?_
      rcases htext with h | h
      · exact Or.inl h
      · rcases hbase with hb | hb
        · exact Or.inr ⟨h1, hb, h⟩
        · rw [hb] at h
          exact absurd h hc
    · simp only [if_neg hc]
      exact hout
  | cons child rest ih =>
    intro st text hcode hout htext
    rw [Chunker.processH1Children]
    have hrest : ∀ x ∈ rest, Chunker.Sanctioned secs x :=
      fun x hx => hl x (List.mem_cons_of_mem child hx)
    by_cases hs : Chunker.sectionFullText child = ""
    · simp only [hs, if_pos rfl]
      exact ih hrest st text hcode hout htext
    · simp only [if_neg hs]
      by_cases hf : (Chunker._fits (Chunker.sectionFullText child) text).1 = true
      · simp only [hf, if_pos rfl]
        refine ih hrest st _ _ hout (Or.inl ?_)
        exact fits_le (Chunker.sectionFullText child) text hf
      · simp only [if_neg hf]
        refine ih hrest _ "" false ?_ (Or.inl (by decide))
        have hst1 : Chunker.OutOK secs
            (if text ≠ "" then Chunker._emit_chunk st page h1 pchain text hcode
             else st) := by
          by_cases hc : text ≠ ""
          · simp only [if_pos hc]
            refine emit_chunk_OutOK secs page st h1 pchain text hcode hout ?_
            rcases htext with h | h
            · exact Or.inl h
            · rcases hbase with hb | hb
              · exact Or.inr ⟨h1, hb, h⟩
              · rw [hb] at h
                exact absurd h hc
          · simp only [if_neg hc]
            exact hout
        refine emit_chunk_OutOK secs page _ child (pchain ++ [h1]) _ _ hst1 ?_
        exact Or.inr ⟨child, hl child (List.mem_cons_self child rest), rfl⟩

/-- Claim C1 (as formalized): on a well-formed parsed document, every chunk
emitted by `make_chunks` either has `estimate_tokens(text) ≤ HARD_TOKENS`,
or its text is exactly the rendered text of one sanctioned section — an H3
(level-3) section, a child of a level-1 section, or a top-level section —
whose own rendered text alone exceeds the hard budget. -/
theorem chunk_budget_respected (page : Chunker.ParsedPage)
    (hwf : ∀ s ∈ page.sections, Chunker.secWFb s = true) :
    ∀ c ∈ Chunker.make_chunks page,
      Chunker.estimate_tokens c.text ≤ Chunker.HARD_TOKENS ∨
      ∃ s : Chunker.Section, Chunker.Sanctioned page.sections s ∧
        c.text = Chunker.sectionFullText s ∧
        Chunker.HARD_TOKENS < Chunker.estimate_tokens (Chunker.sectionFullText s) := by
  have h0 : Chunker.OutOK page.sections ⟨[], [], 0⟩ := by
    intro c hc
    cases hc
  rw [Chunker.make_chunks]
  dsimp only
  split
  · refine processH2s_OutOK page.sections page page.sections _ ?_ _ h0
    intro h2 hh2
    obtain ⟨hl2, hmem, hplace⟩ := iterH2_props page.sections h2 hh2
    have hsanc : Chunker.Sanctioned page.sections h2 := by
      rcases hplace with h | ⟨p, hp, hpl, hpc⟩
      · exact Or.inr (Or.inl h)
      · exact Or.inr (Or.inr ⟨p, hp, hpl, hpc⟩)
    refine ⟨hsanc, ?_⟩
    intro c hc
    have hwfh2 := wf_allNodesList page.sections hwf h2 hmem
    have hch := secWFb_children h2 hwfh2 c hc
    have hcl := secWFb_level c hch.2
    have : c.level = 3 := by omega
    exact Or.inl this
  · set h1 := Chunker._first_h1_or_root page.sections with hdef
    have hcases : (h1 ∈ page.sections ∧ h1.level = 1) ∨
        (h1 = Chunker.Section.mk 1 Option.none Option.none [] page.sections) := by
      rw [hdef, Chunker._first_h1_or_root]
      cases hfind : List.find? (fun s => s.level == 1) page.sections with
      | none => exact Or.inr rfl
      | some s =>
        refine Or.inl ⟨List.mem_of_find?_eq_some hfind, ?_⟩
        have := List.find?_some hfind
        simpa using this
    rcases hcases with ⟨hmem, hlev⟩ | hroot
    · refine processH1Children_OutOK page.sections page h1 _
        (Or.inl (Or.inr (Or.inl hmem))) h1.children ?_ _ _ _ h0 (Or.inr rfl)
      intro c hc
      exact Or.inr (Or.inr ⟨h1, mem_allNodesList_of_mem page.sections h1 hmem,
        hlev, hc⟩)
    · refine processH1Children_OutOK page.sections page h1 _ (Or.inr ?_) h1.children ?_
        _ _ _ h0 (Or.inr rfl)
      · rw [hroot]
        rfl
      · intro c hc
        rw [hroot] at hc
        exact Or.inr (Or.inl hc)

set_option maxRecDepth 60000 in
/-- Witness for C1 at a concrete well-formed page: the first emitted chunk
satisfies the budget disjunction. -/
theorem chunk_budget_respected_witness :
    Chunker.estimate_tokens c9_chunk0.text ≤ Chunker.HARD_TOKENS ∨
    ∃ s : Chunker.Section, Chunker.Sanctioned c9_page.sections s ∧
      c9_chunk0.text = Chunker.sectionFullText s ∧
      Chunker.HARD_TOKENS < Chunker.estimate_tokens (Chunker.sectionFullText s) :=
  chunk_budget_respected c9_page
    (fun s hs => (childrenWFb_spec 0 c9_page.sections rfl s hs).2) c9_chunk0 (by decide)

end ChunkBudgetTheorems

section NormalizeUrlTheorems

/-- `Char.ofNat` inverts `Char.toNat` on valid scalar values. -/
theorem char_toNat_ofNat (n : Nat) (h : n.isValidChar) : (Char.ofNat n).toNat = n := by
  rw [Char.ofNat, dif_pos h]
  rfl

/-- Every `Char` codes a scalar value below `0x110000`. -/
theorem char_toNat_lt (c : Char) : c.toNat < 0x110000 := by
  rcases c.valid with h | ⟨h1, h2⟩
  · have h2 : c.val.toNat < (0xd800 : UInt32).toNat := h
    simp only [UInt32.toNat_ofNat] at h2
    calc c.toNat = c.val.toNat := rfl
    _ < 55296 := by omega
    _ < 0x110000 := by omega
  · exact h2

/-- No `Char` codes a surrogate. -/
theorem char_not_surrogate (c : Char) : c.toNat < 0xd800 ∨ 0xdfff < c.toNat := by
  rcases c.valid with h | ⟨h1, h2⟩
  · left
    have h2 : c.val.toNat < (0xd800 : UInt32).toNat := h
    simp only [UInt32.toNat_ofNat] at h2
    calc c.toNat = c.val.toNat := rfl
    _ < 0xd800 := by omega
  · exact Or.inr h1

/-- `isUpper` through `toNat`. -/
theorem isUpper_iff (c : Char) : c.isUpper = true ↔ 65 ≤ c.toNat ∧ c.toNat ≤ 90 := by
  simp only [Char.isUpper, Bool.and_eq_true, decide_eq_true_eq]
  exact Iff.rfl

/-- `isLower` through `toNat`. -/
theorem isLower_iff (c : Char) : c.isLower = true ↔ 97 ≤ c.toNat ∧ c.toNat ≤ 122 := by
  simp only [Char.isLower, Bool.and_eq_true, decide_eq_true_eq]
  exact Iff.rfl

/-- `isDigit` through `toNat`. -/
theorem isDigit_iff (c : Char) : c.isDigit = true ↔ 48 ≤ c.toNat ∧ c.toNat ≤ 57 := by
  simp only [Char.isDigit, Bool.and_eq_true, decide_eq_true_eq]
  exact Iff.rfl

/-- `isAlpha` through `toNat`. -/
theorem isAlpha_iff (c : Char) :
    c.isAlpha = true ↔ (65 ≤ c.toNat ∧ c.toNat ≤ 90) ∨ (97 ≤ c.toNat ∧ c.toNat ≤ 122) := by
  simp only [Char.isAlpha, Bool.or_eq_true, isUpper_iff, isLower_iff]

/-- Equality of characters through `toNat`. -/
theorem char_eq_iff_toNat (c d : Char) : c = d ↔ c.toNat = d.toNat := by
  constructor
  · intro h; rw [h]
  · intro h
    have h1 : Char.ofNat c.toNat = Char.ofNat d.toNat := by rw [h]
    rwa [Char.ofNat_toNat, Char.ofNat_toNat] at h1

/-- On the uppercase range `lowerChar` adds 32 to the code. -/
theorem lowerChar_pos (c : Char) (h : c.toNat ≥ 65 ∧ c.toNat ≤ 90) :
    (Url.lowerChar c).toNat = c.toNat + 32 := by
  simp only [Url.lowerChar, Char.toLower]
  rw [if_pos h]
  exact char_toNat_ofNat _ (Or.inl (by omega))

/-- Outside the uppercase range `lowerChar` is the identity. -/
theorem lowerChar_neg (c : Char) (h : ¬(c.toNat ≥ 65 ∧ c.toNat ≤ 90)) :
    Url.lowerChar c = c := by
  simp only [Url.lowerChar, Char.toLower]
  rw [if_neg h]

/-- `lowerChar` is idempotent. -/
theorem lowerChar_idem (c : Char) :
    Url.lowerChar (Url.lowerChar c) = Url.lowerChar c := by
  by_cases h : c.toNat ≥ 65 ∧ c.toNat ≤ 90
  · have h1 := lowerChar_pos c h
    apply lowerChar_neg
    omega
  · rw [lowerChar_neg c h]
    exact lowerChar_neg c h

/-- `lowerChar` preserves scheme characters. -/
theorem lowerChar_schemeChar (c : Char) (h : Url.isSchemeChar c = true) :
    Url.isSchemeChar (Url.lowerChar c) = true := by
  by_cases hu : c.toNat ≥ 65 ∧ c.toNat ≤ 90
  · have h1 := lowerChar_pos c hu
    have : (Url.lowerChar c).isAlpha = true := (isAlpha_iff _).mpr (Or.inr (by omega))
    simp only [Url.isSchemeChar, this, Bool.true_or]
  · rwa [lowerChar_neg c hu]

/-- `lowerChar` preserves alphabetic characters. -/
theorem lowerChar_alpha (c : Char) (h : c.isAlpha = true) :
    (Url.lowerChar c).isAlpha = true := by
  by_cases hu : c.toNat ≥ 65 ∧ c.toNat ≤ 90
  · have h1 := lowerChar_pos c hu
    exact (isAlpha_iff _).mpr (Or.inr (by omega))
  · rwa [lowerChar_neg c hu]

/-- `lowerChar` never produces a netloc-terminating character. -/
theorem lowerChar_not_netlocEnd (c : Char) (h : Url.isNetlocEnd c = false) :
    Url.isNetlocEnd (Url.lowerChar c) = false := by
  by_cases hu : c.toNat ≥ 65 ∧ c.toNat ≤ 90
  · have h1 := lowerChar_pos c hu
    have hs : ('/' : Char).toNat = 47 := rfl
    have hq : ('?' : Char).toNat = 63 := rfl
    have hh : ('#' : Char).toNat = 35 := rfl
    simp only [Url.isNetlocEnd, Bool.or_eq_false_iff, beq_eq_false_iff_ne]
    refine ⟨⟨fun he => ?_, fun he => ?_⟩, fun he => ?_⟩ <;>
      · rw [char_eq_iff_toNat] at he
        omega
  · rwa [lowerChar_neg c hu]

/-- `lowerChar` never produces tab, CR or LF. -/
theorem lowerChar_clean (c : Char)
    (h : (!(c == '\t' || c == '\r' || c == '\n')) = true) :
    (!(Url.lowerChar c == '\t' || Url.lowerChar c == '\r' ||
       Url.lowerChar c == '\n')) = true := by
  by_cases hu : c.toNat ≥ 65 ∧ c.toNat ≤ 90
  · have h1 := lowerChar_pos c hu
    have ht : ('\t' : Char).toNat = 9 := rfl
    have hr : ('\r' : Char).toNat = 13 := rfl
    have hn : ('\n' : Char).toNat = 10 := rfl
    simp only [Bool.not_eq_true', Bool.or_eq_false_iff, beq_eq_false_iff_ne]
    refine ⟨⟨fun he => ?_, fun he => ?_⟩, fun he => ?_⟩ <;>
      · rw [char_eq_iff_toNat] at he
        omega
  · rwa [lowerChar_neg c hu]

end NormalizeUrlTheorems

/-- The UTF-8 encoding of a scalar is never empty. -/
theorem utf8EncodeNat_ne_nil (n : Nat) : Py.utf8EncodeNat n ≠ [] := by
  unfold Py.utf8EncodeNat
  split
  · simp
  · split
    · simp
    · split <;> simp

/-- UTF-8 bytes of an in-range scalar are below 256. -/
theorem utf8EncodeNat_lt_256 (n : Nat) (h : n < 0x110000) :
    ∀ b ∈ Py.utf8EncodeNat n, b < 256 := by
  unfold Py.utf8EncodeNat
  split
  · intro b hb
    simp only [List.mem_singleton] at hb
    omega
  · split
    · intro b hb
      simp only [List.mem_cons, List.not_mem_nil, or_false] at hb
      rcases hb with rfl | rfl <;> omega
    · split
      · intro b hb
        simp only [List.mem_cons, List.not_mem_nil, or_false] at hb
        rcases hb with rfl | rfl | rfl <;> omega
      · intro b hb
        simp only [List.mem_cons, List.not_mem_nil, or_false] at hb
        rcases hb with rfl | rfl | rfl | rfl <;> omega

/-- Decoding one 2-byte UTF-8 sequence. -/
theorem decode_two (n : Nat) (h1 : 0x80 ≤ n) (h2 : n < 0x800) (fuel : Nat)
    (tail : List Nat) :
    Url.utf8DecodeRunGo (fuel + 1) ((0xC0 + n / 64) :: (0x80 + n % 64) :: tail) =
      Char.ofNat n :: Url.utf8DecodeRunGo fuel tail := by
  have hc : Url.isCont (0x80 + n % 64) = true := by
    simp only [Url.isCont, Bool.and_eq_true, decide_eq_true_eq]
    omega
  simp only [Url.utf8DecodeRunGo]
  rw [if_neg (by omega), if_neg (by omega), if_pos (by omega), if_pos hc]
  have hv : (0xC0 + n / 64 - 0xC0) * 64 + (0x80 + n % 64 - 0x80) = n := by omega
  rw [hv]

/-- Decoding one 3-byte UTF-8 sequence (non-surrogate scalars). -/
theorem decode_three (n : Nat) (h1 : 0x800 ≤ n) (h2 : n < 0x10000)
    (h3 : n < 0xd800 ∨ 0xdfff < n) (fuel : Nat) (tail : List Nat) :
    Url.utf8DecodeRunGo (fuel + 1)
      ((0xE0 + n / 4096) :: (0x80 + n / 64 % 64) :: (0x80 + n % 64) :: tail) =
      Char.ofNat n :: Url.utf8DecodeRunGo fuel tail := by
  have hc3 : Url.validCont3 (0xE0 + n / 4096) (0x80 + n / 64 % 64) = true := by
    unfold Url.validCont3
    split
    · rename_i hb
      simp only [beq_iff_eq] at hb
      simp only [Bool.and_eq_true, decide_eq_true_eq]
      omega
    · split
      · rename_i hb
        simp only [beq_iff_eq] at hb
        simp only [Bool.and_eq_true, decide_eq_true_eq]
        omega
      · simp only [Url.isCont, Bool.and_eq_true, decide_eq_true_eq]
        omega
  have hc : Url.isCont (0x80 + n % 64) = true := by
    simp only [Url.isCont, Bool.and_eq_true, decide_eq_true_eq]
    omega
  simp only [Url.utf8DecodeRunGo]
  rw [if_neg (by omega), if_neg (by omega), if_neg (by omega), if_pos (by omega),
    if_neg (by rw [hc3]; simp), if_pos hc]
  have hv : (0xE0 + n / 4096 - 0xE0) * 4096 + (0x80 + n / 64 % 64 - 0x80) * 64 +
      (0x80 + n % 64 - 0x80) = n := by omega
  rw [hv]

/-- Decoding one 4-byte UTF-8 sequence. -/
theorem decode_four (n : Nat) (h1 : 0x10000 ≤ n) (h2 : n < 0x110000) (fuel : Nat)
    (tail : List Nat) :
    Url.utf8DecodeRunGo (fuel + 1)
      ((0xF0 + n / 262144) :: (0x80 + n / 4096 % 64) :: (0x80 + n / 64 % 64) ::
        (0x80 + n % 64) :: tail) =
      Char.ofNat n :: Url.utf8DecodeRunGo fuel tail := by
  have hc4 : Url.validCont4 (0xF0 + n / 262144) (0x80 + n / 4096 % 64) = true := by
    unfold Url.validCont4
    split
    · rename_i hb
      simp only [beq_iff_eq] at hb
      simp only [Bool.and_eq_true, decide_eq_true_eq]
      omega
    · split
      · rename_i hb
        simp only [beq_iff_eq] at hb
        simp only [Bool.and_eq_true, decide_eq_true_eq]
        omega
      · simp only [Url.isCont, Bool.and_eq_true, decide_eq_true_eq]
        omega
  have hc2 : Url.isCont (0x80 + n / 64 % 64) = true := by
    simp only [Url.isCont, Bool.and_eq_true, decide_eq_true_eq]
    omega
  have hc : Url.isCont (0x80 + n % 64) = true := by
    simp only [Url.isCont, Bool.and_eq_true, decide_eq_true_eq]
    omega
  simp only [Url.utf8DecodeRunGo]
  rw [if_neg (by omega), if_neg (by omega), if_neg (by omega), if_neg (by omega),
    if_pos (by omega), if_neg (by rw [hc4]; simp), if_neg (by rw [hc2]; simp),
    if_pos hc]
  have hv : (0xF0 + n / 262144 - 0xF0) * 262144 + (0x80 + n / 4096 % 64 - 0x80) * 4096 +
      (0x80 + n / 64 % 64 - 0x80) * 64 + (0x80 + n % 64 - 0x80) = n := by omega
  rw [hv]

/-- Decoding the UTF-8 encoding of one character consumes exactly that
encoding. -/
theorem decode_enc_one (c : Char) (tail : List Nat) (fuel : Nat) :
    Url.utf8DecodeRunGo (fuel + 1) (Py.utf8EncodeNat c.toNat ++ tail) =
      c :: Url.utf8DecodeRunGo fuel tail := by
  have hv := char_toNat_lt c
  have hs := char_not_surrogate c
  by_cases b1 : c.toNat < 0x80
  · have he : Py.utf8EncodeNat c.toNat = [c.toNat] := by
      unfold Py.utf8EncodeNat
      rw [if_pos b1]
    rw [he, List.cons_append, List.nil_append]
    simp only [Url.utf8DecodeRunGo]
    rw [if_pos b1, Char.ofNat_toNat]
  · by_cases b2 : c.toNat < 0x800
    · have he : Py.utf8EncodeNat c.toNat =
          [0xC0 + c.toNat / 64, 0x80 + c.toNat % 64] := by
        unfold Py.utf8EncodeNat
        rw [if_neg b1, if_pos b2]
      rw [he]
      simp only [List.cons_append, List.nil_append]
      rw [decode_two c.toNat (by omega) b2 fuel tail, Char.ofNat_toNat]
    · by_cases b3 : c.toNat < 0x10000
      · have he : Py.utf8EncodeNat c.toNat =
            [0xE0 + c.toNat / 4096, 0x80 + c.toNat / 64 % 64, 0x80 + c.toNat % 64] := by
          unfold Py.utf8EncodeNat
          rw [if_neg b1, if_neg b2, if_pos b3]
        rw [he]
        simp only [List.cons_append, List.nil_append]
        rw [decode_three c.toNat (by omega) b3 hs fuel tail, Char.ofNat_toNat]
      · have he : Py.utf8EncodeNat c.toNat =
            [0xF0 + c.toNat / 262144, 0x80 + c.toNat / 4096 % 64,
             0x80 + c.toNat / 64 % 64, 0x80 + c.toNat % 64] := by
          unfold Py.utf8EncodeNat
          rw [if_neg b1, if_neg b2, if_neg b3]
        rw [he]
        simp only [List.cons_append, List.nil_append]
        rw [decode_four c.toNat (by omega) hv fuel tail, Char.ofNat_toNat]

/-- UTF-8 decoding inverts UTF-8 encoding under sufficient fuel. -/
theorem decode_encode_chars : ∀ (cs : List Char) (fuel : Nat),
    (Py.utf8EncodeChars cs).length ≤ fuel →
    Url.utf8DecodeRunGo fuel (Py.utf8EncodeChars cs) = cs := by
  intro cs
  induction cs with
  | nil =>
    intro fuel _
    show Url.utf8DecodeRunGo fuel [] = []
    cases fuel with
    | zero => rw [Url.utf8DecodeRunGo]
    | succ f => rw [Url.utf8DecodeRunGo]
  | cons c cs ih =>
    intro fuel h
    have hsplit : Py.utf8EncodeChars (c :: cs) =
        Py.utf8EncodeNat c.toNat ++ Py.utf8EncodeChars cs := by
      simp [Py.utf8EncodeChars]
    have hl : 1 ≤ (Py.utf8EncodeNat c.toNat).length := by
      match hm : Py.utf8EncodeNat c.toNat with
      | [] => exact absurd hm (utf8EncodeNat_ne_nil c.toNat)
      | _ :: _ => simp
    rw [hsplit] at h ⊢
    rw [List.length_append] at h
    cases fuel with
    | zero => omega
    | succ f =>
      rw [decode_enc_one c _ f, ih f (by omega)]

/-- `utf8DecodeRun` inverts `utf8EncodeChars`. -/
theorem utf8DecodeRun_encode (cs : List Char) :
    Url.utf8DecodeRun (Py.utf8EncodeChars cs) = cs :=
  decode_encode_chars cs _ (Nat.le_refl _)

/-- `hexVal?` inverts `hexUpper` on nibbles. -/
theorem hexVal_hexUpper (b : Nat) (h : b < 16) : Url.hexVal? (Url.hexUpper b) = some b := by
  interval_cases b <;> decide

/-- The `unquote` scanner emits a literal token for any non-`%` head. -/
theorem unquoteScan_cons_ne (c : Char) (rest : List Char) (h : c ≠ '%') :
    Url.unquoteScan (c :: rest) = Url.QTok.lit c :: Url.unquoteScan rest := by
  rw [Url.unquoteScan.eq_def]
  split
  · rename_i heq
    exact absurd heq (List.cons_ne_nil c rest)
  · rename_i heq
    injection heq with h1 h2
    exact absurd h1 h
  · rename_i heq
    injection heq with h1 h2
    exact absurd h1 h
  · rename_i heq
    injection heq with h1 h2
    rw [← h1, ← h2]

/-- Scanning a percent-encoded byte list prefixed to anything yields the byte
tokens followed by the scan of the remainder. -/
theorem unquoteScan_bytes : ∀ (bs : List Nat), (∀ b ∈ bs, b < 256) → ∀ (t : List Char),
    Url.unquoteScan
      ((bs.flatMap fun b => ['%', Url.hexUpper (b / 16), Url.hexUpper (b % 16)]) ++ t) =
      bs.map Url.QTok.byte ++ Url.unquoteScan t := by
  intro bs
  induction bs with
  | nil =>
    intro _ t
    simp
  | cons b bs ih =>
    intro hlt t
    have hb : b < 256 := hlt b (List.mem_cons_self b bs)
    simp only [List.flatMap_cons, List.cons_append, List.append_assoc, List.map_cons]
    simp only [Url.unquoteScan]
    rw [hexVal_hexUpper (b / 16) (by omega), hexVal_hexUpper (b % 16) (by omega)]
    dsimp only
    have hv : 16 * (b / 16) + b % 16 = b := by omega
    rw [hv, List.nil_append, ih (fun x hx => hlt x (List.mem_cons_of_mem b hx)) t]

/-- Scanning the `quote` encoding of a string prefixed to anything yields the
per-character tokens followed by the scan of the remainder. -/
theorem unquoteScan_quote_append : ∀ (cs t : List Char),
    Url.unquoteScan (Url.quoteChars cs ++ t) =
      cs.flatMap Url.tokOf ++ Url.unquoteScan t := by
  intro cs
  induction cs with
  | nil =>
    intro t
    simp [Url.quoteChars]
  | cons c cs ih =>
    intro t
    have hq : Url.quoteChars (c :: cs) = Url.quoteChar c ++ Url.quoteChars cs := by
      simp [Url.quoteChars]
    rw [hq, List.append_assoc]
    by_cases hsafe : (Url.isAlwaysSafe c || c == '/') = true
    · have hqc : Url.quoteChar c = [c] := by
        unfold Url.quoteChar
        rw [if_pos hsafe]
      have htc : Url.tokOf c = [Url.QTok.lit c] := by
        unfold Url.tokOf
        rw [if_pos hsafe]
      have hne : c ≠ '%' := by
        intro he
        rw [he] at hsafe
        exact absurd hsafe (by decide)
      rw [hqc, List.cons_append, List.nil_append, unquoteScan_cons_ne c _ hne, ih t,
        List.flatMap_cons, htc]
      simp
    · have hqc : Url.quoteChar c = (Py.utf8EncodeNat c.toNat).flatMap
          fun b => ['%', Url.hexUpper (b / 16), Url.hexUpper (b % 16)] := by
        unfold Url.quoteChar
        rw [if_neg hsafe]
      have htc : Url.tokOf c = (Py.utf8EncodeNat c.toNat).map Url.QTok.byte := by
        unfold Url.tokOf
        rw [if_neg hsafe]
      rw [hqc, unquoteScan_bytes _ (utf8EncodeNat_lt_256 c.toNat (char_toNat_lt c)) _,
        ih t, List.flatMap_cons, htc]
      simp

/-- Feeding byte tokens into the `unquote` loop stacks them on the pending
run. -/
theorem unquoteGo_bytes : ∀ (bs pending : List Nat) (t : List Url.QTok),
    Url.unquoteGo pending (bs.map Url.QTok.byte ++ t) =
      Url.unquoteGo (bs.reverse ++ pending) t := by
  intro bs
  induction bs with
  | nil =>
    intro pending t
    simp
  | cons b bs ih =>
    intro pending t
    simp only [List.map_cons, List.cons_append, Url.unquoteGo, List.append_eq]
    rw [ih (b :: pending) t]
    simp

/-- The `unquote` loop over per-character tokens, with a pending encoded run,
decodes the run and then the characters. -/
theorem unquoteGo_toks : ∀ (cs ds : List Char),
    Url.unquoteGo (Py.utf8EncodeChars ds).reverse (cs.flatMap Url.tokOf) =
      ds ++ cs := by
  intro cs
  induction cs with
  | nil =>
    intro ds
    show Url.unquoteGo (Py.utf8EncodeChars ds).reverse [] = ds ++ []
    rw [Url.unquoteGo]
    rw [List.reverse_reverse, utf8DecodeRun_encode]
    simp
  | cons c cs ih =>
    intro ds
    by_cases hsafe : (Url.isAlwaysSafe c || c == '/') = true
    · have htc : Url.tokOf c = [Url.QTok.lit c] := by
        unfold Url.tokOf
        rw [if_pos hsafe]
      rw [List.flatMap_cons, htc, List.cons_append, List.nil_append, Url.unquoteGo,
        List.reverse_reverse, utf8DecodeRun_encode]
      have h0 := ih []
      rw [show ([] : List Char) ++ cs = cs from rfl] at h0
      rw [show (Py.utf8EncodeChars []).reverse = ([] : List Nat) from rfl] at h0
      rw [h0]
    · have htc : Url.tokOf c = (Py.utf8EncodeNat c.toNat).map Url.QTok.byte := by
        unfold Url.tokOf
        rw [if_neg hsafe]
      rw [List.flatMap_cons, htc, unquoteGo_bytes]
      have henc : (Py.utf8EncodeNat c.toNat).reverse ++ (Py.utf8EncodeChars ds).reverse =
          (Py.utf8EncodeChars (ds ++ [c])).reverse := by
        rw [show Py.utf8EncodeChars (ds ++ [c]) =
            Py.utf8EncodeChars ds ++ Py.utf8EncodeNat c.toNat from by
          simp [Py.utf8EncodeChars]]
        rw [List.reverse_append]
      rw [henc, ih (ds ++ [c])]
      simp

/-- `unquote` inverts `quote`. -/
theorem unquote_quote (cs : List Char) :
    Url.unquoteChars (Url.quoteChars cs) = cs := by
  unfold Url.unquoteChars
  rw [← List.append_nil (Url.quoteChars cs), unquoteScan_quote_append cs []]
  rw [show Url.unquoteScan [] = [] from rfl, List.append_nil]
  have h := unquoteGo_toks cs []
  rw [show (Py.utf8EncodeChars []).reverse = ([] : List Nat) from rfl] at h
  rw [h]
  simp

/-- `quote` images are fixed points of `quote ∘ unquote`. -/
theorem quote_unquote_quote (cs : List Char) :
    Url.quoteChars (Url.unquoteChars (Url.quoteChars cs)) = Url.quoteChars cs := by
  rw [unquote_quote]

/-- Decomposition of a successful `splitOnFirst`. -/
theorem splitOnFirst_eq_some : ∀ (l : List Char) (d : Char) (a b : List Char),
    Url.splitOnFirst d l = some (a, b) →
    l = a ++ d :: b ∧ a.all (fun c => !(c == d)) = true := by
  intro l
  induction l with
  | nil =>
    intro d a b h
    rw [Url.splitOnFirst] at h
    cases h
  | cons c cs ih =>
    intro d a b h
    rw [Url.splitOnFirst] at h
    by_cases hc : (c == d) = true
    · rw [if_pos hc] at h
      injection h with h1
      injection h1 with ha hb
      rw [← ha, ← hb]
      exact ⟨by rw [List.nil_append, (beq_iff_eq).mp hc], rfl⟩
    · rw [if_neg hc] at h
      cases hrec : Url.splitOnFirst d cs with
      | none =>
        rw [hrec] at h
        cases h
      | some p =>
        rw [hrec] at h
        injection h with h1
        obtain ⟨ha, hb⟩ : c :: p.1 = a ∧ p.2 = b := by
          have h2 : (c :: p.1, p.2) = (a, b) := h1
          exact ⟨congrArg Prod.fst h2, congrArg Prod.snd h2⟩
        obtain ⟨hcs, hall⟩ := ih d p.1 p.2 (by rw [hrec])
        rw [← ha, ← hb]
        constructor
        · rw [List.cons_append, hcs]
        · simp only [List.all_cons, Bool.and_eq_true]
          exact ⟨by simp [hc], hall⟩

/-- `splitOnFirst` misses a delimiter-free list. -/
theorem splitOnFirst_eq_none_of_all : ∀ (l : List Char) (d : Char),
    l.all (fun c => !(c == d)) = true → Url.splitOnFirst d l = Option.none := by
  intro l
  induction l with
  | nil => intro d _; rw [Url.splitOnFirst]
  | cons c cs ih =>
    intro d h
    simp only [List.all_cons, Bool.and_eq_true, Bool.not_eq_true'] at h
    rw [Url.splitOnFirst, if_neg (by simp [h.1]), ih d (by simp [List.all_eq_true] at h ⊢; exact h.2)]
    rfl

/-- `splitOnFirst` cuts at the first delimiter after a delimiter-free
prefix. -/
theorem splitOnFirst_append : ∀ (a : List Char) (d : Char) (t : List Char),
    a.all (fun c => !(c == d)) = true →
    Url.splitOnFirst d (a ++ d :: t) = some (a, t) := by
  intro a
  induction a with
  | nil =>
    intro d t _
    rw [List.nil_append, Url.splitOnFirst, if_pos (by simp)]
  | cons c cs ih =>
    intro d t h
    simp only [List.all_cons, Bool.and_eq_true, Bool.not_eq_true'] at h
    rw [List.cons_append, Url.splitOnFirst, if_neg (by simp [h.1]),
      ih d t (by simp [List.all_eq_true] at h ⊢; exact h.2)]
    rfl

/-- `splitAllGo` on a delimiter-free list yields a single piece. -/
theorem splitAllGo_no_delim : ∀ (l : List Char) (d : Char) (cur : List Char),
    l.all (fun c => !(c == d)) = true →
    Url.splitAllGo d cur l = [cur.reverse ++ l] := by
  intro l
  induction l with
  | nil =>
    intro d cur _
    rw [Url.splitAllGo, List.append_nil]
  | cons c cs ih =>
    intro d cur h
    simp only [List.all_cons, Bool.and_eq_true, Bool.not_eq_true'] at h
    rw [Url.splitAllGo, if_neg (by simp [h.1]),
      ih d (c :: cur) (by simp [List.all_eq_true] at h ⊢; exact h.2)]
    simp

/-- `splitAllGo` across the first delimiter after a delimiter-free prefix. -/
theorem splitAllGo_through : ∀ (x : List Char) (d : Char) (cur t : List Char),
    x.all (fun c => !(c == d)) = true →
    Url.splitAllGo d cur (x ++ d :: t) =
      (cur.reverse ++ x) :: Url.splitAllGo d [] t := by
  intro x
  induction x with
  | nil =>
    intro d cur t _
    rw [List.nil_append, Url.splitAllGo, if_pos (by simp), List.append_nil]
  | cons c cs ih =>
    intro d cur t h
    simp only [List.all_cons, Bool.and_eq_true, Bool.not_eq_true'] at h
    rw [List.cons_append, Url.splitAllGo, if_neg (by simp [h.1]),
      ih d (c :: cur) t (by simp [List.all_eq_true] at h ⊢; exact h.2)]
    simp

/-- Splitting the delimiter-join of delimiter-free pieces restores the
pieces. -/
theorem splitAll_join : ∀ (ps : List (List Char)) (d : Char), ps ≠ [] →
    (∀ x ∈ ps, x.all (fun c => !(c == d)) = true) →
    Url.splitAll d ((ps.intersperse [d]).flatten) = ps := by
  intro ps
  induction ps with
  | nil => intro d h _; exact absurd rfl h
  | cons x rest ih =>
    intro d _ hall
    cases rest with
    | nil =>
      rw [List.intersperse_single, List.flatten, List.flatten, List.append_nil,
        Url.splitAll, splitAllGo_no_delim x d [] (hall x (List.mem_cons_self x []))]
      rfl
    | cons y rest2 =>
      rw [List.intersperse_cons₂, List.flatten, List.flatten, Url.splitAll]
      rw [show ([d] ++ ((y :: rest2).intersperse [d]).flatten :
          List Char) = d :: ((y :: rest2).intersperse [d]).flatten from rfl]
      rw [splitAllGo_through x d [] _ (hall x (List.mem_cons_self x _))]
      rw [show Url.splitAllGo d [] (((y :: rest2).intersperse [d]).flatten) =
          Url.splitAll d (((y :: rest2).intersperse [d]).flatten) from rfl]
      rw [ih d (by simp) (fun z hz => hall z (List.mem_cons_of_mem x hz))]
      simp

/-- Every piece `splitAllGo` yields is delimiter-free provided the running
accumulator is. -/
theorem splitAllGo_pieces_free : ∀ (l : List Char) (d : Char) (cur : List Char),
    cur.all (fun c => !(c == d)) = true →
    ∀ x ∈ Url.splitAllGo d cur l, x.all (fun c => !(c == d)) = true := by
  intro l
  induction l with
  | nil =>
    intro d cur hcur x hx
    rw [Url.splitAllGo] at hx
    simp only [List.mem_singleton] at hx
    rw [hx, List.all_reverse]
    exact hcur
  | cons c cs ih =>
    intro d cur hcur x hx
    rw [Url.splitAllGo] at hx
    by_cases hc : (c == d) = true
    · rw [if_pos hc] at hx
      rcases List.mem_cons.mp hx with he | hm
      · rw [he, List.all_reverse]
        exact hcur
      · exact ih d [] rfl x hm
    · rw [if_neg hc] at hx
      refine ih d (c :: cur) ?_ x hx
      simp only [List.all_cons, Bool.and_eq_true]
      exact ⟨by simp [hc], hcur⟩

/-- Every piece `splitAllGo` yields satisfies a character predicate holding on
the input and the accumulator. -/
theorem splitAllGo_pieces_pred (p : Char → Bool) :
    ∀ (l : List Char) (d : Char) (cur : List Char),
    cur.all p = true → l.all p = true →
    ∀ x ∈ Url.splitAllGo d cur l, x.all p = true := by
  intro l
  induction l with
  | nil =>
    intro d cur hcur _ x hx
    rw [Url.splitAllGo] at hx
    simp only [List.mem_singleton] at hx
    rw [hx, List.all_reverse]
    exact hcur
  | cons c cs ih =>
    intro d cur hcur hl x hx
    simp only [List.all_cons, Bool.and_eq_true] at hl
    rw [Url.splitAllGo] at hx
    by_cases hc : (c == d) = true
    · rw [if_pos hc] at hx
      rcases List.mem_cons.mp hx with he | hm
      · rw [he, List.all_reverse]
        exact hcur
      · exact ih d [] rfl hl.2 x hm
    · rw [if_neg hc] at hx
      refine ih d (c :: cur) ?_ hl.2 x hx
      simp only [List.all_cons, Bool.and_eq_true]
      exact ⟨hl.1, hcur⟩

/-- A character predicate survives joining pieces with a delimiter it
accepts. -/
theorem flatten_intersperse_pred (p : Char → Bool) (d : Char) (hd : p d = true) :
    ∀ (ps : List (List Char)), (∀ x ∈ ps, x.all p = true) →
    ((ps.intersperse [d]).flatten).all p = true := by
  intro ps
  induction ps with
  | nil => intro _; rfl
  | cons x rest ih =>
    intro hall
    cases rest with
    | nil =>
      rw [List.intersperse_single, List.flatten, List.flatten, List.append_nil]
      exact hall x (List.mem_cons_self x [])
    | cons y rest2 =>
      rw [List.intersperse_cons₂, List.flatten, List.flatten]
      rw [List.all_append, Bool.and_eq_true]
      refine ⟨hall x (List.mem_cons_self x _), ?_⟩
      rw [List.all_append, Bool.and_eq_true]
      refine ⟨by simp [hd], ?_⟩
      exact ih (fun z hz => hall z (List.mem_cons_of_mem x hz))

/-- A character predicate transfers along list inclusion. -/
theorem all_of_subset (l m : List Char) (p : Char → Bool)
    (hsub : ∀ c ∈ l, c ∈ m) (h : ∀ c ∈ m, p c = true) : l.all p = true := by
  rw [List.all_eq_true]
  exact fun c hc => h c (hsub c hc)

/-- A failed `splitOnFirst` means the delimiter is absent. -/
theorem splitOnFirst_none_all : ∀ (l : List Char) (d : Char),
    Url.splitOnFirst d l = Option.none → l.all (fun c => !(c == d)) = true := by
  intro l
  induction l with
  | nil => intro d _; rfl
  | cons c cs ih =>
    intro d h
    rw [Url.splitOnFirst] at h
    by_cases hc : (c == d) = true
    · rw [if_pos hc] at h
      cases h
    · rw [if_neg hc] at h
      simp only [List.all_cons, Bool.and_eq_true]
      refine ⟨by simp [hc], ih d ?_⟩
      cases hrec : Url.splitOnFirst d cs with
      | none => rfl
      | some p =>
        rw [hrec] at h
        cases h


/-- Components of `urlsplitTail`: the scheme passes through, the netloc stops
before any `/?#`, and all components stay clean; the query holds no `#`. -/
theorem urlsplitTail_props (scheme rest : List Char)
    (hclean : ∀ x ∈ rest, Url.cleanChar x = true) :
    (Url.urlsplitTail scheme rest).scheme = scheme ∧
    (Url.urlsplitTail scheme rest).netloc.all (fun c => !(Url.isNetlocEnd c)) = true ∧
    (Url.urlsplitTail scheme rest).netloc.all Url.cleanChar = true ∧
    (Url.urlsplitTail scheme rest).path.all Url.cleanChar = true ∧
    (Url.urlsplitTail scheme rest).query.all Url.cleanChar = true ∧
    (Url.urlsplitTail scheme rest).query.all (fun c => !(c == '#')) = true := by
  unfold Url.urlsplitTail
  have hmain : ∀ (netloc rest2 : List Char),
      netloc.all (fun c => !(Url.isNetlocEnd c)) = true →
      netloc.all Url.cleanChar = true →
      (∀ x ∈ rest2, Url.cleanChar x = true) →
      let fragSplit := (Url.splitOnFirst '#' rest2).getD (rest2, [])
      let querySplit := (Url.splitOnFirst '?' fragSplit.1).getD (fragSplit.1, [])
      (Url.SplitResult.mk scheme netloc querySplit.1 querySplit.2
          fragSplit.2).scheme = scheme ∧
      (Url.SplitResult.mk scheme netloc querySplit.1 querySplit.2
          fragSplit.2).netloc.all (fun c => !(Url.isNetlocEnd c)) = true ∧
      (Url.SplitResult.mk scheme netloc querySplit.1 querySplit.2
          fragSplit.2).netloc.all Url.cleanChar = true ∧
      (Url.SplitResult.mk scheme netloc querySplit.1 querySplit.2
          fragSplit.2).path.all Url.cleanChar = true ∧
      (Url.SplitResult.mk scheme netloc querySplit.1 querySplit.2
          fragSplit.2).query.all Url.cleanChar = true ∧
      (Url.SplitResult.mk scheme netloc querySplit.1 querySplit.2
          fragSplit.2).query.all (fun c => !(c == '#')) = true := by
    intro netloc rest2 hn1 hn2 hr2
    have hfrag : ∀ (fa : List Char),
        (∀ c ∈ fa, c ∈ rest2) → fa.all (fun c => !(c == '#')) = true →
        let querySplit := (Url.splitOnFirst '?' fa).getD (fa, [])
        querySplit.1.all Url.cleanChar = true ∧
        querySplit.2.all Url.cleanChar = true ∧
        querySplit.2.all (fun c => !(c == '#')) = true := by
      intro fa hsub hnoh
      rcases hq : Url.splitOnFirst '?' fa with _ | ⟨qa, qb⟩ <;>
        dsimp only [Option.getD_none, Option.getD_some]
      · refine ⟨all_of_subset _ _ _ hsub hr2, rfl, rfl⟩
      · obtain ⟨hdec, hqa⟩ := splitOnFirst_eq_some _ '?' qa qb hq
        have hqs : ∀ c ∈ qb, c ∈ fa := by
          intro c hc
          rw [hdec]
          exact List.mem_append.mpr (Or.inr (List.mem_cons_of_mem _ hc))
        have hps : ∀ c ∈ qa, c ∈ fa := by
          intro c hc
          rw [hdec]
          exact List.mem_append.mpr (Or.inl hc)
        refine ⟨all_of_subset _ _ _ (fun c hc => hsub c (hps c hc)) hr2,
          all_of_subset _ _ _ (fun c hc => hsub c (hqs c hc)) hr2, ?_⟩
        rw [List.all_eq_true] at hnoh ⊢
        exact fun c hc => hnoh c (hqs c hc)
    rcases hf : Url.splitOnFirst '#' rest2 with _ | ⟨fa, fb⟩ <;>
      dsimp only [Option.getD_none, Option.getD_some]
    · have hnoh := splitOnFirst_none_all _ '#' hf
      obtain ⟨hq1, hq2, hq3⟩ := hfrag rest2 (fun c hc => hc) hnoh
      exact ⟨rfl, hn1, hn2, hq1, hq2, hq3⟩
    · obtain ⟨hdec, hfa⟩ := splitOnFirst_eq_some _ '#' fa fb hf
      have hfs : ∀ c ∈ fa, c ∈ rest2 := by
        intro c hc
        rw [hdec]
        exact List.mem_append.mpr (Or.inl hc)
      obtain ⟨hq1, hq2, hq3⟩ := hfrag fa hfs hfa
      exact ⟨rfl, hn1, hn2, hq1, hq2, hq3⟩
  by_cases h2 : rest.take 2 = ['/', '/']
  · rw [if_pos h2]
    dsimp only
    refine hmain _ _ ?_ ?_ ?_
    · rw [List.all_eq_true]
      intro c hc
      have h3 := @List.mem_takeWhile_imp Char (fun c => !Url.isNetlocEnd c)
        (rest.drop 2) c hc
      simpa using h3
    · refine all_of_subset _ _ _ (fun c hc => List.takeWhile_subset _ hc) ?_
      exact fun x hx => hclean x (List.drop_subset 2 rest hx)
    · exact fun x hx => hclean x (List.drop_subset 2 rest (List.drop_subset _ _ hx))
  · rw [if_neg h2]
    dsimp only
    exact hmain [] rest rfl rfl hclean

/-- Components of `urlsplit`: the scheme is empty or nonempty lowercase
scheme characters led by a letter; the netloc stops before `/?#`; all
components are free of tab/CR/LF; the query holds no `#`. -/
theorem urlsplit_props (u : List Char) :
    ((Url.urlsplitChars u).scheme = [] ∨
      ((∃ c0 s2, (Url.urlsplitChars u).scheme = c0 :: s2 ∧ c0.isAlpha = true) ∧
       (Url.urlsplitChars u).scheme.all Url.isSchemeChar = true ∧
       (Url.urlsplitChars u).scheme.map Url.lowerChar = (Url.urlsplitChars u).scheme)) ∧
    (Url.urlsplitChars u).netloc.all (fun c => !(Url.isNetlocEnd c)) = true ∧
    (Url.urlsplitChars u).netloc.all Url.cleanChar = true ∧
    (Url.urlsplitChars u).path.all Url.cleanChar = true ∧
    (Url.urlsplitChars u).query.all Url.cleanChar = true ∧
    (Url.urlsplitChars u).query.all (fun c => !(c == '#')) = true := by
  unfold Url.urlsplitChars
  dsimp only
  generalize hu : (u.dropWhile fun c => c.toNat ≤ 0x20).filter
      (fun c => !(c == '\t' || c == '\r' || c == '\n')) = url0
  have hurl : ∀ x ∈ url0, Url.cleanChar x = true := by
    intro x hx
    rw [← hu] at hx
    exact (List.mem_filter.mp hx).2
  rcases hsp : Url.splitOnFirst ':' url0 with _ | ⟨before, after⟩ <;>
    dsimp only [Option.elim]
  · obtain ⟨hts, h2, h3, h4, h5, h6⟩ := urlsplitTail_props [] _ hurl
    exact ⟨Or.inl hts, h2, h3, h4, h5, h6⟩
  · by_cases hc : (!before.isEmpty && (match before.head? with
        | some c0 => c0.isAlpha
        | Option.none => false) && before.all Url.isSchemeChar) = true
    · rw [if_pos hc]
      dsimp only
      obtain ⟨hdec, _⟩ := splitOnFirst_eq_some _ ':' before after hsp
      have hafter : ∀ x ∈ after, Url.cleanChar x = true := by
        intro x hx
        refine hurl x ?_
        rw [hdec]
        exact List.mem_append.mpr (Or.inr (List.mem_cons_of_mem _ hx))
      obtain ⟨hts, h2, h3, h4, h5, h6⟩ :=
        urlsplitTail_props (before.map Url.lowerChar) after hafter
      refine ⟨Or.inr ?_, h2, h3, h4, h5, h6⟩
      simp only [Bool.and_eq_true] at hc
      obtain ⟨⟨hne, hhead⟩, hall⟩ := hc
      cases before with
      | nil => simp at hne
      | cons c0 bs =>
        simp only [List.head?] at hhead
        rw [hts]
        refine ⟨⟨Url.lowerChar c0, bs.map Url.lowerChar, by simp,
          lowerChar_alpha c0 hhead⟩, ?_, ?_⟩
        · rw [List.all_map, List.all_eq_true]
          rw [List.all_eq_true] at hall
          intro c hcm
          exact lowerChar_schemeChar c (hall c hcm)
        · rw [List.map_map]
          refine List.map_congr_left ?_
          intro a _
          exact lowerChar_idem a
    · rw [if_neg hc]
      dsimp only
      obtain ⟨hts, h2, h3, h4, h5, h6⟩ := urlsplitTail_props [] _ hurl
      exact ⟨Or.inl hts, h2, h3, h4, h5, h6⟩

/-- Scheme characters are clean. -/
theorem clean_of_schemeChar (c : Char) (h : Url.isSchemeChar c = true) :
    Url.cleanChar c = true := by
  unfold Url.cleanChar
  by_cases h1 : c = '\t'
  · rw [h1] at h
    exact absurd h (by decide)
  · by_cases h2 : c = '\r'
    · rw [h2] at h
      exact absurd h (by decide)
    · by_cases h3 : c = '\n'
      · rw [h3] at h
        exact absurd h (by decide)
      · simp [h1, h2, h3]

/-- Scheme characters are not the scheme separator. -/
theorem ne_colon_of_schemeChar (c : Char) (h : Url.isSchemeChar c = true) :
    (c == ':') = false := by
  by_cases h1 : c = ':'
  · rw [h1] at h
    exact absurd h (by decide)
  · simp [h1]

/-- Letters are above the C0-control/space range. -/
theorem not_le32_of_alpha (c : Char) (h : c.isAlpha = true) :
    decide (c.toNat ≤ 0x20) = false := by
  rw [decide_eq_false_iff_not]
  have := (isAlpha_iff c).mp h
  omega

/-- `okPathChar` characters are clean. -/
theorem clean_of_okPath (c : Char) (h : Url.okPathChar c = true) :
    Url.cleanChar c = true := by
  unfold Url.okPathChar at h
  simp only [Bool.and_eq_true] at h
  exact h.1.1

/-- `okPathChar` characters are not `#`. -/
theorem not_hash_of_okPath (c : Char) (h : Url.okPathChar c = true) :
    (c == '#') = false := by
  unfold Url.okPathChar at h
  simp only [Bool.and_eq_true, Bool.not_eq_true'] at h
  exact h.1.2

/-- `okPathChar` characters are not `?`. -/
theorem not_qm_of_okPath (c : Char) (h : Url.okPathChar c = true) :
    (c == '?') = false := by
  unfold Url.okPathChar at h
  simp only [Bool.and_eq_true, Bool.not_eq_true'] at h
  exact h.2

/-- With a nonempty netloc, an empty fragment, and a path that is empty or
absolute, `urlunsplit` produces the concatenation
`scheme: + // + netloc + path + ?query`. -/
theorem urlunsplit_netloc_form (r : Url.SplitResult) (hn : r.netloc ≠ [])
    (hpathhead : r.path = [] ∨ r.path.head? = some '/') (hfrag : r.fragment = []) :
    Url.urlunsplitChars r =
      (if r.scheme = [] then ([] : List Char) else r.scheme ++ [':']) ++
      '/' :: '/' :: (r.netloc ++ r.path) ++
      (if r.query = [] then ([] : List Char) else '?' :: r.query) := by
  unfold Url.urlunsplitChars
  dsimp only
  rw [if_pos (Or.inl hn)]
  have hpath' : Url.absPath r.path = r.path := by
    unfold Url.absPath
    rcases hpathhead with h | h
    · rw [if_neg]
      rintro ⟨h1, _⟩
      exact h1 h
    · rw [if_neg]
      rintro ⟨_, h2⟩
      exact h2 h
  rw [hpath', hfrag]
  rw [if_neg (by simp : ¬(([] : List Char) ≠ []))]
  by_cases hq : r.query = []
  · rw [if_neg (fun hh => hh hq), if_pos hq]
    by_cases hsc : r.scheme = []
    · rw [if_neg (fun hh => hh hsc), if_pos hsc]
      simp
    · rw [if_pos hsc, if_neg hsc]
      simp
  · rw [if_pos hq, if_neg hq]
    by_cases hsc : r.scheme = []
    · rw [if_neg (fun hh => hh hsc), if_pos hsc]
      simp
    · rw [if_pos hsc, if_neg hsc]
      simp

/-- Splitting `// + netloc + path + query-part` restores the components. -/
theorem urlsplitTail_rebuild (scheme netloc path Q query : List Char)
    (hnet1 : netloc.all (fun c => !(Url.isNetlocEnd c)) = true)
    (hpathhead : path = [] ∨ path.head? = some '/')
    (hpath : path.all Url.okPathChar = true)
    (hQ : (Q = [] ∧ query = []) ∨
      (Q = '?' :: query ∧ query.all (fun c => !(c == '#')) = true)) :
    Url.urlsplitTail scheme ('/' :: '/' :: ((netloc ++ path) ++ Q)) =
      ⟨scheme, netloc, path, query, []⟩ := by
  unfold Url.urlsplitTail
  dsimp only
  rw [if_pos (by simp)]
  simp only [List.drop_succ_cons, List.drop_zero]
  have htw : ((netloc ++ path) ++ Q).takeWhile (fun c => !Url.isNetlocEnd c) =
      netloc := by
    rw [List.append_assoc]
    rw [List.takeWhile_append_of_pos (by
      rw [List.all_eq_true] at hnet1
      intro a ha
      have := hnet1 a ha
      simpa using this)]
    have htail : (path ++ Q).takeWhile (fun c => !Url.isNetlocEnd c) = [] := by
      rcases hpathhead with hp | hp
      · rw [hp, List.nil_append]
        rcases hQ with ⟨hQe, _⟩ | ⟨hQe, _⟩
        · rw [hQe]
          rfl
        · rw [hQe]
          rw [List.takeWhile_cons_of_neg (by decide)]
      · cases path with
        | nil => cases hp
        | cons c t =>
          have hc : c = '/' := by
            injection hp
          rw [hc, List.cons_append, List.takeWhile_cons_of_neg (by decide)]
    rw [htail, List.append_nil]
  rw [htw]
  have hdl : ((netloc ++ path) ++ Q).drop netloc.length = path ++ Q := by
    rw [List.append_assoc]
    exact List.drop_left netloc (path ++ Q)
  rw [hdl]
  have hpq : ∀ c ∈ path, (c == '?') = false := by
    rw [List.all_eq_true] at hpath
    exact fun c hc => not_qm_of_okPath c (hpath c hc)
  have hph : ∀ c ∈ path, (c == '#') = false := by
    rw [List.all_eq_true] at hpath
    exact fun c hc => not_hash_of_okPath c (hpath c hc)
  have hnh : (path ++ Q).all (fun c => !(c == '#')) = true := by
    rw [List.all_append, Bool.and_eq_true]
    refine ⟨by rw [List.all_eq_true]; intro c hc; simp [hph c hc], ?_⟩
    rcases hQ with ⟨hQe, _⟩ | ⟨hQe, hq2⟩
    · rw [hQe]
      rfl
    · rw [hQe]
      simp only [List.all_cons, Bool.and_eq_true]
      exact ⟨by decide, hq2⟩
  rw [splitOnFirst_eq_none_of_all _ '#' hnh]
  dsimp only [Option.getD_none]
  rcases hQ with ⟨hQe, hqe⟩ | ⟨hQe, _⟩
  · rw [hQe, hqe, List.append_nil]
    rw [splitOnFirst_eq_none_of_all _ '?' (by
      rw [List.all_eq_true]
      intro c hc
      simp [hpq c hc])]
    dsimp only [Option.getD_none]
  · rw [hQe, splitOnFirst_append path '?' query (by
      rw [List.all_eq_true]
      intro c hc
      simp [hpq c hc])]
    dsimp only [Option.getD_some]

/-- Round trip: splitting the reassembly of well-formed components with a
nonempty netloc restores the components. -/
theorem urlsplit_unsplit (r : Url.SplitResult)
    (hn : r.netloc ≠ [])
    (hs : r.scheme = [] ∨ ((∃ c0 s2, r.scheme = c0 :: s2 ∧ c0.isAlpha = true) ∧
      r.scheme.all Url.isSchemeChar = true ∧ r.scheme.map Url.lowerChar = r.scheme))
    (hnet1 : r.netloc.all (fun c => !(Url.isNetlocEnd c)) = true)
    (hnet2 : r.netloc.all Url.cleanChar = true)
    (hpathhead : r.path = [] ∨ r.path.head? = some '/')
    (hpath : r.path.all Url.okPathChar = true)
    (hq1 : r.query.all Url.cleanChar = true)
    (hq2 : r.query.all (fun c => !(c == '#')) = true)
    (hfrag : r.fragment = []) :
    Url.urlsplitChars (Url.urlunsplitChars r) = r := by
  obtain ⟨rs, rn, rp, rq, rf⟩ := r
  dsimp only at hn hs hnet1 hnet2 hpathhead hpath hq1 hq2 hfrag
  subst hfrag
  rw [urlunsplit_netloc_form ⟨rs, rn, rp, rq, []⟩ hn hpathhead rfl]
  dsimp only
  have hQ : ((if rq = [] then ([] : List Char) else '?' :: rq) = [] ∧ rq = []) ∨
      ((if rq = [] then ([] : List Char) else '?' :: rq) = '?' :: rq ∧
        rq.all (fun c => !(c == '#')) = true) := by
    by_cases hqe : rq = []
    · exact Or.inl ⟨by rw [if_pos hqe], hqe⟩
    · exact Or.inr ⟨by rw [if_neg hqe], hq2⟩
  have hQclean : ∀ c ∈ (if rq = [] then ([] : List Char) else '?' :: rq),
      Url.cleanChar c = true := by
    intro c hc
    rcases hQ with ⟨hQe, _⟩ | ⟨hQe, _⟩ <;> rw [hQe] at hc
    · cases hc
    · rcases List.mem_cons.mp hc with he | hm
      · rw [he]
        decide
      · rw [List.all_eq_true] at hq1
        exact hq1 c hm
  have hMclean : ∀ c ∈ '/' :: '/' :: (rn ++ (rp ++
      (if rq = [] then ([] : List Char) else '?' :: rq))), Url.cleanChar c = true := by
    intro c hc
    rcases List.mem_cons.mp hc with he | hc2
    · rw [he]; decide
    rcases List.mem_cons.mp hc2 with he | hc3
    · rw [he]; decide
    rcases List.mem_append.mp hc3 with hm | hm2
    · rw [List.all_eq_true] at hnet2
      exact hnet2 c hm
    rcases List.mem_append.mp hm2 with hm | hm3
    · rw [List.all_eq_true] at hpath
      exact clean_of_okPath c (hpath c hm)
    · exact hQclean c hm3
  rcases hs with hsE | ⟨⟨c0, s2, hrs, hc0⟩, hall, hmap⟩
  · subst hsE
    have hU : ((if ([] : List Char) = [] then ([] : List Char) else [] ++ [':']) ++
        '/' :: '/' :: (rn ++ rp) ++
        (if rq = [] then ([] : List Char) else '?' :: rq)) =
        '/' :: '/' :: (rn ++ (rp ++
          (if rq = [] then ([] : List Char) else '?' :: rq))) := by
      simp
    rw [hU]
    unfold Url.urlsplitChars
    dsimp only
    rw [List.dropWhile_cons_of_neg (by decide)]
    rw [List.filter_eq_self.mpr (by
      intro c hc
      exact hMclean c hc)]
    rcases hsp : Url.splitOnFirst ':' ('/' :: '/' :: (rn ++ (rp ++
        (if rq = [] then ([] : List Char) else '?' :: rq)))) with _ | ⟨b, a⟩ <;>
      dsimp only [Option.elim]
    · rw [← List.append_assoc rn rp]
      exact urlsplitTail_rebuild [] rn rp _ rq hnet1 hpathhead hpath hQ
    · obtain ⟨hdec, _⟩ := splitOnFirst_eq_some _ ':' b a hsp
      cases b with
      | nil =>
        rw [List.nil_append] at hdec
        injection hdec with hh _
        exact absurd hh (by decide)
      | cons cb bs =>
        rw [List.cons_append] at hdec
        injection hdec with hh _
        rw [if_neg (by
          rw [← hh]
          have hM : ('/' : Char).isAlpha = false := by decide
          simp [hM])]
        dsimp only
        rw [← List.append_assoc rn rp]
        exact urlsplitTail_rebuild [] rn rp _ rq hnet1 hpathhead hpath hQ
  · have hU : ((if rs = [] then ([] : List Char) else rs ++ [':']) ++
        '/' :: '/' :: (rn ++ rp) ++
        (if rq = [] then ([] : List Char) else '?' :: rq)) =
        rs ++ ':' :: ('/' :: '/' :: (rn ++ (rp ++
          (if rq = [] then ([] : List Char) else '?' :: rq)))) := by
      rw [if_neg (by rw [hrs]; simp)]
      simp
    rw [hU]
    unfold Url.urlsplitChars
    dsimp only
    have hcol : rs.all (fun c => !(c == ':')) = true := by
      rw [List.all_eq_true] at hall ⊢
      intro c hc
      have := ne_colon_of_schemeChar c (hall c hc)
      simp [this]
    have hdw : (rs ++ ':' :: ('/' :: '/' :: (rn ++ (rp ++
        (if rq = [] then ([] : List Char) else '?' :: rq))))).dropWhile
        (fun c => decide (c.toNat ≤ 0x20)) =
        rs ++ ':' :: ('/' :: '/' :: (rn ++ (rp ++
        (if rq = [] then ([] : List Char) else '?' :: rq)))) := by
      rw [hrs, List.cons_append]
      rw [List.dropWhile_cons_of_neg (by
        have := (isAlpha_iff c0).mp hc0
        simp only [decide_eq_true_eq]
        omega)]
    rw [hdw]
    rw [List.filter_eq_self.mpr (by
      intro c hc
      rcases List.mem_append.mp hc with hm | hm2
      · rw [List.all_eq_true] at hall
        exact clean_of_schemeChar c (hall c hm)
      rcases List.mem_cons.mp hm2 with he | hm3
      · rw [he]; decide
      · exact hMclean c hm3)]
    rw [splitOnFirst_append rs ':' _ hcol]
    dsimp only [Option.elim]
    rw [if_pos (by
      rw [hrs]
      simp only [List.isEmpty_cons, List.head?, Bool.not_false, Bool.true_and]
      rw [← hrs]
      simp [hc0, hall])]
    dsimp only
    rw [hmap]
    rw [← List.append_assoc rn rp]
    exact urlsplitTail_rebuild rs rn rp _ rq hnet1 hpathhead hpath hQ

/-- `quote` distributes over append. -/
theorem quoteChars_append (a b : List Char) :
    Url.quoteChars (a ++ b) = Url.quoteChars a ++ Url.quoteChars b := by
  simp [Url.quoteChars]

/-- `quote` of one character list cons. -/
theorem quoteChars_cons (c : Char) (cs : List Char) :
    Url.quoteChars (c :: cs) = Url.quoteChar c ++ Url.quoteChars cs := by
  simp [Url.quoteChars]

/-- `/` survives `quote` unchanged. -/
theorem quoteChar_slash : Url.quoteChar '/' = ['/'] := by decide

/-- Uppercase hex digits are acceptable path characters. -/
theorem okPathChar_hexUpper (x : Nat) (h : x < 16) :
    Url.okPathChar (Url.hexUpper x) = true := by
  interval_cases x <;> decide

/-- Every character `quote` emits for one input character is an acceptable
path character. -/
theorem quoteChar_ok (c : Char) : (Url.quoteChar c).all Url.okPathChar = true := by
  unfold Url.quoteChar
  by_cases hsafe : (Url.isAlwaysSafe c || c == '/') = true
  · rw [if_pos hsafe]
    simp only [List.all_cons, List.all_nil, Bool.and_true]
    unfold Url.okPathChar Url.cleanChar
    have h1 : (c == '#') = false := by
      by_cases he : c = '#'
      · rw [he] at hsafe
        exact absurd hsafe (by decide)
      · simp [he]
    have h2 : (c == '?') = false := by
      by_cases he : c = '?'
      · rw [he] at hsafe
        exact absurd hsafe (by decide)
      · simp [he]
    have h3 : (c == '\t') = false := by
      by_cases he : c = '\t'
      · rw [he] at hsafe
        exact absurd hsafe (by decide)
      · simp [he]
    have h4 : (c == '\r') = false := by
      by_cases he : c = '\r'
      · rw [he] at hsafe
        exact absurd hsafe (by decide)
      · simp [he]
    have h5 : (c == '\n') = false := by
      by_cases he : c = '\n'
      · rw [he] at hsafe
        exact absurd hsafe (by decide)
      · simp [he]
    simp [h1, h2, h3, h4, h5]
  · rw [if_neg hsafe]
    rw [List.all_eq_true]
    intro x hx
    rw [List.mem_flatMap] at hx
    obtain ⟨b, hb, hxb⟩ := hx
    have hblt : b < 256 := utf8EncodeNat_lt_256 c.toNat (char_toNat_lt c) b hb
    rcases List.mem_cons.mp hxb with he | hxb2
    · rw [he]
      decide
    rcases List.mem_cons.mp hxb2 with he | hxb3
    · rw [he]
      exact okPathChar_hexUpper (b / 16) (by omega)
    rcases List.mem_cons.mp hxb3 with he | hxb4
    · rw [he]
      exact okPathChar_hexUpper (b % 16) (by omega)
    · cases hxb4

/-- Every character of a `quote` image is an acceptable path character. -/
theorem quoteChars_ok (cs : List Char) :
    (Url.quoteChars cs).all Url.okPathChar = true := by
  induction cs with
  | nil => rfl
  | cons c cs ih =>
    rw [quoteChars_cons, List.all_append, Bool.and_eq_true]
    exact ⟨quoteChar_ok c, ih⟩

/-- Prepending `/` leaves the last path segment unchanged. -/
theorem lastSegment_cons_slash (x : List Char) :
    Seeds.lastSegment ('/' :: x) = Seeds.lastSegment x := by
  unfold Seeds.lastSegment
  rw [List.reverse_cons, List.takeWhile_append]
  by_cases hlen : (x.reverse.takeWhile fun c => !(c == '/')).length = x.reverse.length
  · rw [if_pos hlen]
    have hpre : (x.reverse.takeWhile fun c => !(c == '/')) <+: x.reverse :=
      List.takeWhile_prefix _
    have heq : (x.reverse.takeWhile fun c => !(c == '/')) = x.reverse :=
      hpre.eq_of_length hlen
    rw [List.takeWhile_cons_of_neg (by decide), List.append_nil, heq]
  · rw [if_neg hlen]

/-- `splitAllGo` always yields at least one piece. -/
theorem splitAllGo_ne_nil : ∀ (l : List Char) (d : Char) (cur : List Char),
    Url.splitAllGo d cur l ≠ [] := by
  intro l
  induction l with
  | nil =>
    intro d cur
    rw [Url.splitAllGo]
    exact List.cons_ne_nil _ _
  | cons c cs ih =>
    intro d cur
    rw [Url.splitAllGo]
    by_cases hc : (c == d) = true
    · rw [if_pos hc]
      exact List.cons_ne_nil _ _
    · rw [if_neg hc]
      exact ih d (c :: cur)

/-- Joining the pieces of `splitAllGo` with the delimiter restores the
input (after the pending accumulator). -/
theorem flatten_intersperse_splitAllGo : ∀ (l : List Char) (d : Char)
    (cur : List Char),
    ((Url.splitAllGo d cur l).intersperse [d]).flatten = cur.reverse ++ l := by
  intro l
  induction l with
  | nil =>
    intro d cur
    rw [Url.splitAllGo, List.intersperse_single]
    simp
  | cons c cs ih =>
    intro d cur
    rw [Url.splitAllGo]
    by_cases hc : (c == d) = true
    · rw [if_pos hc]
      rcases hsg : Url.splitAllGo d [] cs with _ | ⟨y, rest2⟩
      · exact absurd hsg (splitAllGo_ne_nil cs d [])
      · have hIH := ih d []
        rw [hsg] at hIH
        rw [List.reverse_nil, List.nil_append] at hIH
        rw [List.intersperse_cons₂, List.flatten, List.flatten]
        rw [hIH]
        have hcd : c = d := beq_iff_eq.mp hc
        rw [hcd]
        simp
    · rw [if_neg hc, ih d (c :: cur)]
      rw [List.reverse_cons]
      simp

/-- Joining the pieces of `splitAll` restores the input. -/
theorem join_splitAll (q : List Char) (d : Char) :
    ((Url.splitAll d q).intersperse [d]).flatten = q := by
  have h := flatten_intersperse_splitAllGo q d []
  rw [show Url.splitAllGo d [] q = Url.splitAll d q from rfl] at h
  simpa using h

/-- `urlunsplit` is unchanged by pre-normalizing the path it would normalize
itself, whenever the netloc is nonempty. -/
theorem urlunsplit_absPath (s h p q f : List Char) (hn : h ≠ []) :
    Url.urlunsplitChars ⟨s, h, p, q, f⟩ =
      Url.urlunsplitChars ⟨s, h, Url.absPath p, q, f⟩ := by
  unfold Url.urlunsplitChars
  dsimp only
  rw [if_pos (Or.inl hn), if_pos (Or.inl hn)]
  have habs : Url.absPath (Url.absPath p) = Url.absPath p := by
    unfold Url.absPath
    by_cases hc : p ≠ [] ∧ p.head? ≠ some '/'
    · rw [if_pos hc, if_neg]
      rintro ⟨_, h2⟩
      exact h2 rfl
    · rw [if_neg hc, if_neg hc]
  rw [habs]

/-- Lowercasing a list twice equals lowercasing it once. -/
theorem map_lower_idem (h : List Char) :
    (h.map Url.lowerChar).map Url.lowerChar = h.map Url.lowerChar := by
  rw [List.map_map]
  exact List.map_congr_left fun a _ => lowerChar_idem a

/-- `getLast?` ignores a cons onto a nonempty list. -/
theorem getLast?_cons_ne_nil (a : Char) (l : List Char) (h : l ≠ []) :
    (a :: l).getLast? = l.getLast? := by
  cases l with
  | nil => exact absurd rfl h
  | cons b t => exact List.getLast?_cons_cons

/-- The reassemble-reparse-strip tail of `normalize_url`, over abstract
components. -/
theorem normalize_tail_eq (nS nH p1 q : List Char) (hnn : nH ≠ [])
    (hsS : nS = [] ∨ ((∃ c0 s2, nS = c0 :: s2 ∧ c0.isAlpha = true) ∧
      nS.all Url.isSchemeChar = true ∧ nS.map Url.lowerChar = nS))
    (hnet1 : nH.all (fun c => !(Url.isNetlocEnd c)) = true)
    (hnet2 : nH.all Url.cleanChar = true)
    (hphead : (Url.absPath p1).head? = some '/')
    (hpok : (Url.absPath p1).all Url.okPathChar = true)
    (hq1 : q.all Url.cleanChar = true)
    (hq2 : q.all (fun c => !(c == '#')) = true) :
    Url.urlunsplitChars
      { Url.urlsplitChars (Url.urlunsplitChars ⟨nS, nH, p1, q, []⟩) with
        query := Seeds.stripQuery
          (Url.urlsplitChars (Url.urlunsplitChars ⟨nS, nH, p1, q, []⟩)).query } =
    Url.urlunsplitChars ⟨nS, nH, Url.absPath p1, Seeds.stripQuery q, []⟩ := by
  rw [urlunsplit_absPath nS nH p1 q [] hnn]
  have hrt : Url.urlsplitChars
      (Url.urlunsplitChars ⟨nS, nH, Url.absPath p1, q, []⟩) =
      ⟨nS, nH, Url.absPath p1, q, []⟩ :=
    urlsplit_unsplit ⟨nS, nH, Url.absPath p1, q, []⟩ hnn hsS hnet1 hnet2
      (Or.inr hphead) hpok hq1 hq2 rfl
  rw [hrt]

set_option maxHeartbeats 1000000 in
/-- The output of `normalize_url` is the reassembly of explicitly normalized
components, and those components satisfy `NormInv`. -/
theorem normalize_shape (l : List Char)
    (hn : (Url.urlsplitChars l).netloc ≠ []) :
    Seeds.normalize_urlChars l =
      Url.urlunsplitChars
        ⟨Seeds.normScheme (Url.urlsplitChars l).scheme,
         (Url.urlsplitChars l).netloc.map Url.lowerChar,
         Url.absPath (Seeds.slashAdjust
           (Url.quoteChars (Url.unquoteChars (Url.urlsplitChars l).path))),
         Seeds.stripQuery (Url.urlsplitChars l).query, []⟩ ∧
    Seeds.NormInv
      (Seeds.normScheme (Url.urlsplitChars l).scheme)
      ((Url.urlsplitChars l).netloc.map Url.lowerChar)
      (Url.absPath (Seeds.slashAdjust
        (Url.quoteChars (Url.unquoteChars (Url.urlsplitChars l).path))))
      (Seeds.stripQuery (Url.urlsplitChars l).query) := by
  obtain ⟨hsP, hn1P, hn2P, hpP, hq1P, hq2P⟩ := urlsplit_props l
  -- component facts
  have hnn : (Url.urlsplitChars l).netloc.map Url.lowerChar ≠ [] := by
    intro h
    exact hn (List.map_eq_nil_iff.mp h)
  have hsS : Seeds.normScheme (Url.urlsplitChars l).scheme = [] ∨
      ((∃ c0 s2, Seeds.normScheme (Url.urlsplitChars l).scheme = c0 :: s2 ∧
          c0.isAlpha = true) ∧
       (Seeds.normScheme (Url.urlsplitChars l).scheme).all Url.isSchemeChar = true ∧
       (Seeds.normScheme (Url.urlsplitChars l).scheme).map Url.lowerChar =
         Seeds.normScheme (Url.urlsplitChars l).scheme) := by
    by_cases hf : (Url.urlsplitChars l).scheme = "http".data ∨
        (Url.urlsplitChars l).scheme = "https".data
    · right
      unfold Seeds.normScheme
      rw [if_pos hf]
      exact ⟨⟨'h', "ttps".data, by decide, by decide⟩, by decide, by decide⟩
    · unfold Seeds.normScheme
      rw [if_neg hf]
      exact hsP
  have hsF : Seeds.normScheme (Seeds.normScheme (Url.urlsplitChars l).scheme) =
      Seeds.normScheme (Url.urlsplitChars l).scheme := by
    by_cases hf : (Url.urlsplitChars l).scheme = "http".data ∨
        (Url.urlsplitChars l).scheme = "https".data
    · unfold Seeds.normScheme
      rw [if_pos hf]
      decide
    · unfold Seeds.normScheme
      rw [if_neg hf, if_neg hf]
  have hnet1N : ((Url.urlsplitChars l).netloc.map Url.lowerChar).all
      (fun c => !(Url.isNetlocEnd c)) = true := by
    rw [List.all_map, List.all_eq_true]
    rw [List.all_eq_true] at hn1P
    intro c hc
    have h1 := hn1P c hc
    show (!(Url.isNetlocEnd (Url.lowerChar c))) = true
    rw [Bool.not_eq_true'] at h1 ⊢
    exact lowerChar_not_netlocEnd c h1
  have hnet2N : ((Url.urlsplitChars l).netloc.map Url.lowerChar).all
      Url.cleanChar = true := by
    rw [List.all_map, List.all_eq_true]
    rw [List.all_eq_true] at hn2P
    intro c hc
    have h1 := hn2P c hc
    show Url.cleanChar (Url.lowerChar c) = true
    unfold Url.cleanChar at h1 ⊢
    exact lowerChar_clean c h1
  -- path facts
  have himg0 : ∃ cs, Url.quoteChars
      (Url.unquoteChars (Url.urlsplitChars l).path) = Url.quoteChars cs :=
    ⟨Url.unquoteChars (Url.urlsplitChars l).path, rfl⟩
  have hqslash : Url.quoteChars ['/'] = ['/'] := by decide
  have hp1ne : Seeds.slashAdjust
      (Url.quoteChars (Url.unquoteChars (Url.urlsplitChars l).path)) ≠ [] := by
    unfold Seeds.slashAdjust
    split
    · simp
    · rename_i hcond
      intro he
      rw [he] at hcond
      exact hcond (by decide)
  have himg1 : ∃ cs, Seeds.slashAdjust
      (Url.quoteChars (Url.unquoteChars (Url.urlsplitChars l).path)) =
      Url.quoteChars cs := by
    obtain ⟨cs0, h0⟩ := himg0
    unfold Seeds.slashAdjust
    split
    · refine ⟨cs0 ++ ['/'], ?_⟩
      rw [quoteChars_append, ← h0, hqslash]
    · exact ⟨cs0, h0⟩
  have himgA : ∃ cs, Url.absPath (Seeds.slashAdjust
      (Url.quoteChars (Url.unquoteChars (Url.urlsplitChars l).path))) =
      Url.quoteChars cs := by
    obtain ⟨cs1, h1⟩ := himg1
    unfold Url.absPath
    split
    · refine ⟨'/' :: cs1, ?_⟩
      rw [quoteChars_cons, quoteChar_slash, h1]
      rfl
    · exact ⟨cs1, h1⟩
  have hphead : (Url.absPath (Seeds.slashAdjust
      (Url.quoteChars (Url.unquoteChars (Url.urlsplitChars l).path)))).head? =
      some '/' := by
    unfold Url.absPath
    by_cases hc : Seeds.slashAdjust
        (Url.quoteChars (Url.unquoteChars (Url.urlsplitChars l).path)) ≠ [] ∧
        (Seeds.slashAdjust
          (Url.quoteChars (Url.unquoteChars (Url.urlsplitChars l).path))).head? ≠
          some '/'
    · rw [if_pos hc]
      rfl
    · rw [if_neg hc]
      by_cases hh : (Seeds.slashAdjust
          (Url.quoteChars (Url.unquoteChars (Url.urlsplitChars l).path))).head? =
          some '/'
      · exact hh
      · exact absurd ⟨hp1ne, hh⟩ hc
  have habs_seg : ∀ (x : List Char), x ≠ [] →
      Seeds.lastSegment (Url.absPath x) = Seeds.lastSegment x ∧
      (Url.absPath x).getLast? = x.getLast? := by
    intro x hx
    unfold Url.absPath
    split
    · exact ⟨lastSegment_cons_slash x, getLast?_cons_ne_nil '/' x hx⟩
    · exact ⟨rfl, rfl⟩
  have htrail : (Seeds.lastSegment (Url.absPath (Seeds.slashAdjust
        (Url.quoteChars (Url.unquoteChars (Url.urlsplitChars l).path))))).contains
        '.' = true ∨
      (Url.absPath (Seeds.slashAdjust
        (Url.quoteChars (Url.unquoteChars (Url.urlsplitChars l).path)))).getLast? =
        some '/' := by
    obtain ⟨hseg, hlast⟩ := habs_seg _ hp1ne
    unfold Seeds.slashAdjust at hseg hlast hp1ne ⊢
    by_cases hcond : ¬ (Seeds.lastSegment
          (Url.quoteChars (Url.unquoteChars (Url.urlsplitChars l).path))).contains
          '.' ∧
        (Url.quoteChars (Url.unquoteChars (Url.urlsplitChars l).path)).getLast? ≠
          some '/'
    · rw [if_pos hcond] at hlast ⊢
      right
      rw [hlast, List.getLast?_concat]
    · rw [if_neg hcond] at hseg hlast ⊢
      by_cases hl : (Url.quoteChars
          (Url.unquoteChars (Url.urlsplitChars l).path)).getLast? = some '/'
      · right
        rw [hlast, hl]
      · by_cases hcont : (Seeds.lastSegment (Url.quoteChars
            (Url.unquoteChars (Url.urlsplitChars l).path))).contains '.' = true
        · left
          rw [hseg, hcont]
        · exact absurd ⟨fun hcc => hcont hcc, hl⟩ hcond
  have hpok : (Url.absPath (Seeds.slashAdjust
      (Url.quoteChars (Url.unquoteChars (Url.urlsplitChars l).path)))).all
      Url.okPathChar = true := by
    obtain ⟨cs, hcs⟩ := himgA
    rw [hcs]
    exact quoteChars_ok cs
  -- query facts
  have hqc : (Seeds.stripQuery (Url.urlsplitChars l).query).all Url.cleanChar =
      true := by
    unfold Seeds.stripQuery
    split
    · refine flatten_intersperse_pred Url.cleanChar '&' (by decide) _ ?_
      intro x hx
      refine splitAllGo_pieces_pred Url.cleanChar _ '&' [] rfl hq1P x ?_
      exact (List.mem_filter.mp hx).1
    · exact hq1P
  have hqh : (Seeds.stripQuery (Url.urlsplitChars l).query).all
      (fun c => !(c == '#')) = true := by
    unfold Seeds.stripQuery
    split
    · refine flatten_intersperse_pred (fun c => !(c == '#')) '&' (by decide) _ ?_
      intro x hx
      refine splitAllGo_pieces_pred (fun c => !(c == '#')) _ '&' [] rfl hq2P x ?_
      exact (List.mem_filter.mp hx).1
    · exact hq2P
  have hstrip : Seeds.stripQuery (Url.urlsplitChars l).query ≠ [] →
      (Url.splitAll '&' (Seeds.stripQuery (Url.urlsplitChars l).query)).filter
        (fun kv => kv ≠ [] ∧
          ¬ Seeds.TRACKING_PARAMS.contains (String.mk (Seeds.keyOf kv))) =
      Url.splitAll '&' (Seeds.stripQuery (Url.urlsplitChars l).query) := by
    intro hQne
    unfold Seeds.stripQuery at hQne ⊢
    by_cases hqe : (Url.urlsplitChars l).query ≠ []
    · rw [if_pos hqe] at hQne ⊢
      have hkne : (Url.splitAll '&' (Url.urlsplitChars l).query).filter
          (fun kv => kv ≠ [] ∧
            ¬ Seeds.TRACKING_PARAMS.contains (String.mk (Seeds.keyOf kv))) ≠ [] := by
        intro hk
        rw [hk] at hQne
        exact hQne rfl
      have hfree : ∀ x ∈ (Url.splitAll '&' (Url.urlsplitChars l).query).filter
          (fun kv => kv ≠ [] ∧
            ¬ Seeds.TRACKING_PARAMS.contains (String.mk (Seeds.keyOf kv))),
          x.all (fun c => !(c == '&')) = true := by
        intro x hx
        exact splitAllGo_pieces_free _ '&' [] rfl x (List.mem_filter.mp hx).1
      rw [splitAll_join _ '&' hkne hfree]
      refine List.filter_eq_self.mpr ?_
      intro a ha
      exact (List.mem_filter.mp ha).2
    · rw [if_neg hqe] at hQne
      exact absurd hQne hqe
  refine ⟨?_, hnn, hsS, hsF, map_lower_idem _, hnet1N, hnet2N, himgA, hphead,
    htrail, hqc, hqh, hstrip⟩
  unfold Seeds.normalize_urlChars Seeds.strip_trackingChars
  dsimp only
  exact normalize_tail_eq _ _ _ _ hnn hsS hnet1N hnet2N hphead hpok hq1P hq2P

/-- Reassemblies of components satisfying `NormInv` are fixed points of
`normalize_url`. -/
theorem normalize_fixed_of_inv (s h p q : List Char)
    (hinv : Seeds.NormInv s h p q) :
    Seeds.normalize_urlChars (Url.urlunsplitChars ⟨s, h, p, q, []⟩) =
      Url.urlunsplitChars ⟨s, h, p, q, []⟩ := by
  obtain ⟨hnn, hsS, hsF, hmap, hnet1, hnet2, himg, hphead, htrail, hq1, hq2,
    hstrip⟩ := hinv
  have hpok : p.all Url.okPathChar = true := by
    obtain ⟨cs, hcs⟩ := himg
    rw [hcs]
    exact quoteChars_ok cs
  have hrt : Url.urlsplitChars (Url.urlunsplitChars ⟨s, h, p, q, []⟩) =
      ⟨s, h, p, q, []⟩ :=
    urlsplit_unsplit ⟨s, h, p, q, []⟩ hnn hsS hnet1 hnet2 (Or.inr hphead) hpok
      hq1 hq2 rfl
  have hn2 : (Url.urlsplitChars (Url.urlunsplitChars ⟨s, h, p, q, []⟩)).netloc ≠
      [] := by
    rw [hrt]
    exact hnn
  obtain ⟨heq2, _⟩ := normalize_shape (Url.urlunsplitChars ⟨s, h, p, q, []⟩) hn2
  rw [heq2, hrt]
  dsimp only
  have hpath_fix : Url.absPath (Seeds.slashAdjust
      (Url.quoteChars (Url.unquoteChars p))) = p := by
    obtain ⟨cs, hcs⟩ := himg
    have hqq : Url.quoteChars (Url.unquoteChars p) = p := by
      rw [hcs, unquote_quote]
    rw [hqq]
    have hsa : Seeds.slashAdjust p = p := by
      unfold Seeds.slashAdjust
      rw [if_neg]
      rintro ⟨hc1, hc2⟩
      rcases htrail with ht | ht
      · exact hc1 ht
      · exact hc2 ht
    rw [hsa]
    unfold Url.absPath
    rw [if_neg]
    rintro ⟨_, hc2⟩
    exact hc2 hphead
  have hq_fix : Seeds.stripQuery q = q := by
    unfold Seeds.stripQuery
    split
    · rename_i hqne
      rw [hstrip hqne, join_splitAll]
    · rfl
  rw [hpath_fix, hq_fix, hsF, hmap]

/-- Idempotence of `normalize_url` on character lists whose first parse has a
nonempty netloc. -/
theorem normalize_urlChars_idem (l : List Char)
    (hn : (Url.urlsplitChars l).netloc ≠ []) :
    Seeds.normalize_urlChars (Seeds.normalize_urlChars l) =
      Seeds.normalize_urlChars l := by
  obtain ⟨heq, hinv⟩ := normalize_shape l hn
  rw [heq]
  exact normalize_fixed_of_inv _ _ _ _ hinv

set_option maxRecDepth 8000 in
set_option maxHeartbeats 4000000 in
/-- Claim C7 counterexample: `normalize_url` is not idempotent on all
strings.  On `"/%2F"` the first pass decodes `%2F` to `/`, making the path
`"//"`; `urlunsplit` then emits `"//"`, which `urlsplit` re-reads as an
empty netloc with empty path, so the whole URL collapses to `""`; a second
pass turns `""` into `"/"`. -/
theorem normalize_url_not_idempotent :
    Seeds.normalize_url "/%2F" = "" ∧
    Seeds.normalize_url (Seeds.normalize_url "/%2F") ≠
      Seeds.normalize_url "/%2F" := by
  refine ⟨by decide, ?_⟩
  decide

/-- Definitional unfolding of `normalize_url`. -/
theorem normalize_url_def (v : String) :
    Seeds.normalize_url v = String.mk (Seeds.normalize_urlChars v.data) := rfl

/-- The character data of a `normalize_url` output. -/
theorem normalize_url_data (v : String) :
    (Seeds.normalize_url v).data = Seeds.normalize_urlChars v.data := by
  rw [normalize_url_def v]

/-- Claim C7 (amended): `normalize_url` is idempotent on every URL whose
parse carries a nonempty network location (every absolute `scheme://host...`
URL); the collapse in the counterexample can only happen when the netloc is
empty. -/
theorem normalize_url_idempotent_on_netloc (u : String)
    (hn : (Url.urlsplitChars u.data).netloc ≠ []) :
    Seeds.normalize_url (Seeds.normalize_url u) = Seeds.normalize_url u := by
  rw [normalize_url_def (Seeds.normalize_url u), normalize_url_data u,
    normalize_urlChars_idem u.data hn, normalize_url_def u]

set_option maxRecDepth 60000 in
set_option maxHeartbeats 4000000 in
/-- Witness for the amended C7 theorem at a concrete absolute URL with mixed
case, a tracking parameter and an extensionless path. -/
theorem normalize_url_idempotent_on_netloc_witness :
    (Url.urlsplitChars "https://Example.com/Docs?utm_source=x&a=1".data).netloc ≠
      [] ∧
    Seeds.normalize_url
        (Seeds.normalize_url "https://Example.com/Docs?utm_source=x&a=1") =
      Seeds.normalize_url "https://Example.com/Docs?utm_source=x&a=1" :=
  ⟨by decide, normalize_url_idempotent_on_netloc
    "https://Example.com/Docs?utm_source=x&a=1" (by decide)⟩
